import Mathlib

/-!
# Verification of the screen-annotation overlay core

Shallow embedding of `src/screen_annotation/annotation_tool.py` (an
interactive freehand-annotation overlay):

* the Ramer-Douglas-Peucker path simplifier (`rdp_simplify`),
* the Qt `QPainterPath` move-to / line-to construction semantics,
* the persistence codec (`serialize_path` / `deserialize_path` /
  `save_settings` / `load_settings`),
* the snapshot-based undo/redo manager
  (`commit_state` / `undo` / `redo`),
* the move-mode selection and handle-drag logic
  (`inputPress` / `inputMove` / `get_hit_handle`),
* the screen-to-document inverse transform (`map_screen_to_doc`).

Modelling conventions:

* Python `float` arithmetic is modelled exactly over `ℚ`.  All claims are
  about algebraic/structural behaviour of the algorithms, not about
  floating-point rounding.
* The source compares Euclidean distances `d = nom / sqrt(denom²)` against
  each other and against a tolerance.  Since both sides of every such
  comparison are non-negative, each comparison is algebraized over `ℚ` by
  comparing squares (`a > b ↔ a² > b²` for `a, b ≥ 0`); the definitions
  below carry the squared quantities and the comparisons are proved
  equivalent in the accompanying comments.
* The recursion of `rdp_simplify` does not terminate in Python for some
  inputs when the tolerance is negative (the split index can stay `0`, so
  `points[0:]` recurses on the whole list).  The embedding therefore uses
  an explicit fuel parameter, with `none` meaning "the Python code does
  not return" (it would die with `RecursionError`).  For non-negative
  tolerances fuel `length + 1` is proved sufficient.
-/

/-- A 2-D point with exact rational coordinates (models `QPointF`). -/
structure Pt where
  x : ℚ
  y : ℚ
deriving DecidableEq, Repr

def ptZero : Pt := ⟨0, 0⟩

/-- Numerator of `OverlayWidget.perpendicular_distance`:
`abs((y2-y1)*x0 - (x2-x1)*y0 + x2*y1 - y2*x1)`. -/
def pdNum (pt p1 p2 : Pt) : ℚ :=
  |(p2.y - p1.y) * pt.x - (p2.x - p1.x) * pt.y + p2.x * p1.y - p2.y * p1.x|

/-- The squared denominator of `perpendicular_distance`:
`(y2-y1)**2 + (x2-x1)**2` (the source takes its square root). -/
def segLenSq (p1 p2 : Pt) : ℚ := (p2.y - p1.y) ^ 2 + (p2.x - p1.x) ^ 2

/-- Square of `OverlayWidget.perpendicular_distance pt p1 p2`
(`nom / denom if denom != 0 else 0`).  The square is used because the
source only ever compares this quantity against other non-negative
quantities, and `ℚ` has no square root. -/
def perpendicular_distance_sq (pt p1 p2 : Pt) : ℚ :=
  if segLenSq p1 p2 = 0 then 0 else pdNum pt p1 p2 ^ 2 / segLenSq p1 p2

/-- One step of the farthest-point loop of `rdp_simplify`
(`if d > dmax: index = i; dmax = d`), carried on squared distances
(`d > dmax ↔ d² > dmax²` since both are non-negative). -/
def argmaxStep (f : ℕ → ℚ) (a : ℕ × ℚ) (i : ℕ) : ℕ × ℚ :=
  if a.2 < f i then (i, f i) else a

/-- The `for i in range(1, end)` loop of `rdp_simplify`: running first
index and maximum squared perpendicular distance of the interior
vertices to the chord `p1`-`p2`, starting from `(0, 0.0)`. -/
def interiorArgmax (points : List Pt) (p1 p2 : Pt) : ℕ × ℚ :=
  (List.range' 1 (points.length - 2)).foldl
    (argmaxStep (fun i => perpendicular_distance_sq (points.getD i ptZero) p1 p2))
    (0, 0)

/-- `OverlayWidget.rdp_simplify` with explicit recursion fuel; `none`
models non-termination of the Python recursion.  The test
`dmax > epsilon` on real distances is algebraized as
`epsilon < 0 ∨ epsilon² < dmax²` (equivalent since `dmax ≥ 0`). -/
def rdpF : ℕ → List Pt → ℚ → Option (List Pt)
  | 0, _, _ => none
  | fuel + 1, points, epsilon =>
    if points.length < 3 then some points
    else
      let p1 := points.getD 0 ptZero
      let p2 := points.getD (points.length - 1) ptZero
      let im := interiorArgmax points p1 p2
      if epsilon < 0 ∨ epsilon ^ 2 < im.2 then
        match rdpF fuel (points.take (im.1 + 1)) epsilon,
              rdpF fuel (points.drop im.1) epsilon with
        | some r1, some r2 => some (r1.dropLast ++ r2)
        | _, _ => none
      else some [p1, p2]

/-- `OverlayWidget.rdp_simplify`.  For tolerances `≥ 0` the fuel
`length + 1` is sufficient (proved below), so this computes exactly the
Python result; the `getD` default is never reached in that case. -/
def rdp_simplify (points : List Pt) (epsilon : ℚ) : List Pt :=
  (rdpF (points.length + 1) points epsilon).getD points

/-- The Python recursion of `rdp_simplify` runs forever on this input
(no fuel suffices). -/
def rdpDiverges (points : List Pt) (epsilon : ℚ) : Prop :=
  ∀ fuel, rdpF fuel points epsilon = none

theorem segLenSq_nonneg (p1 p2 : Pt) : 0 ≤ segLenSq p1 p2 := by
  unfold segLenSq; positivity

theorem perpendicular_distance_sq_nonneg (pt p1 p2 : Pt) :
    0 ≤ perpendicular_distance_sq pt p1 p2 := by
  unfold perpendicular_distance_sq
  split
  · exact le_refl 0
  · exact div_nonneg (sq_nonneg _) (segLenSq_nonneg p1 p2)

theorem pdNum_self_left (p1 p2 : Pt) : pdNum p1 p1 p2 = 0 := by
  unfold pdNum
  rw [abs_eq_zero]; ring

theorem pdNum_self_right (p1 p2 : Pt) : pdNum p2 p1 p2 = 0 := by
  unfold pdNum
  rw [abs_eq_zero]; ring

theorem perpendicular_distance_sq_self_left (p1 p2 : Pt) :
    perpendicular_distance_sq p1 p1 p2 = 0 := by
  unfold perpendicular_distance_sq
  split
  · rfl
  · rw [pdNum_self_left]; norm_num

theorem perpendicular_distance_sq_self_right (p1 p2 : Pt) :
    perpendicular_distance_sq p2 p1 p2 = 0 := by
  unfold perpendicular_distance_sq
  split
  · rfl
  · rw [pdNum_self_right]; norm_num

/-- Full characterization of the strict-update running-argmax fold over a
strictly increasing index list: the result bounds every value, dominates
the accumulator, and is either the untouched accumulator or the first
index attaining the (strictly larger) maximum. -/
theorem argmaxFold_spec (f : ℕ → ℚ) (l : List ℕ) :
    ∀ acc : ℕ × ℚ, l.Pairwise (· < ·) →
      (∀ i ∈ l, f i ≤ (l.foldl (argmaxStep f) acc).2) ∧
      acc.2 ≤ (l.foldl (argmaxStep f) acc).2 ∧
      (l.foldl (argmaxStep f) acc = acc ∨
        ((l.foldl (argmaxStep f) acc).1 ∈ l ∧
         f (l.foldl (argmaxStep f) acc).1 = (l.foldl (argmaxStep f) acc).2 ∧
         acc.2 < (l.foldl (argmaxStep f) acc).2 ∧
         ∀ i ∈ l, i < (l.foldl (argmaxStep f) acc).1 →
           f i < (l.foldl (argmaxStep f) acc).2)) := by
  induction l with
  | nil => intro acc _; simp
  | cons a t ih =>
    intro acc hp
    have hp' : t.Pairwise (· < ·) := (List.pairwise_cons.mp hp).2
    have halt : ∀ i ∈ t, a < i := (List.pairwise_cons.mp hp).1
    obtain ⟨ihb, ihm, ihc⟩ := ih (argmaxStep f acc a) hp'
    rw [List.foldl_cons]
    by_cases hlt : acc.2 < f a
    · have hstep : argmaxStep f acc a = (a, f a) := by
        simp [argmaxStep, hlt]
      rw [hstep]
      rw [hstep] at ihb ihm ihc
      refine ⟨?_, ?_, ?_⟩
      · intro i hi
        rcases List.mem_cons.mp hi with rfl | hi
        · exact ihm
        · exact ihb i hi
      · exact le_of_lt (lt_of_lt_of_le hlt ihm)
      · rcases ihc with heq | ⟨h1, h2, h3, h4⟩
        · refine Or.inr ⟨?_, ?_, ?_, ?_⟩
          · rw [heq]; exact List.mem_cons_self a t
          · rw [heq]
          · rw [heq]; exact hlt
          · intro i hi hlti
            rcases List.mem_cons.mp hi with rfl | hi
            · rw [heq] at hlti; exact absurd hlti (lt_irrefl i)
            · rw [heq] at hlti; exact absurd hlti (Nat.not_lt.mpr (le_of_lt (halt i hi)))
        · refine Or.inr ⟨List.mem_cons_of_mem a h1, h2, lt_trans hlt h3, ?_⟩
          intro i hi hlti
          rcases List.mem_cons.mp hi with rfl | hi
          · exact h3
          · exact h4 i hi hlti
    · have hstep : argmaxStep f acc a = acc := by
        simp [argmaxStep, hlt]
      rw [hstep]
      rw [hstep] at ihb ihm ihc
      refine ⟨?_, ihm, ?_⟩
      · intro i hi
        rcases List.mem_cons.mp hi with rfl | hi
        · exact le_trans (not_lt.mp hlt) ihm
        · exact ihb i hi
      · rcases ihc with heq | ⟨h1, h2, h3, h4⟩
        · exact Or.inl heq
        · refine Or.inr ⟨List.mem_cons_of_mem a h1, h2, h3, ?_⟩
          intro i hi hlti
          rcases List.mem_cons.mp hi with rfl | hi
          · exact lt_of_le_of_lt (not_lt.mp hlt) h3
          · exact h4 i hi hlti

/-- The squared interior distance used by `interiorArgmax` for a list. -/
def dSq (points : List Pt) (v : Pt) : ℚ :=
  perpendicular_distance_sq v (points.getD 0 ptZero)
    (points.getD (points.length - 1) ptZero)

theorem interiorArgmax_nonneg (points : List Pt) (p1 p2 : Pt) :
    0 ≤ (interiorArgmax points p1 p2).2 :=
  (argmaxFold_spec _ _ (0, 0) (List.pairwise_lt_range' 1 _ 1)).2.1

theorem interiorArgmax_bound (points : List Pt) (p1 p2 : Pt) (i : ℕ)
    (h1 : 1 ≤ i) (h2 : i + 2 ≤ points.length) :
    perpendicular_distance_sq (points.getD i ptZero) p1 p2 ≤
      (interiorArgmax points p1 p2).2 := by
  refine (argmaxFold_spec _ _ (0, 0) (List.pairwise_lt_range' 1 _ 1)).1 i ?_
  rw [List.mem_range'_1]
  omega

theorem interiorArgmax_pos_spec (points : List Pt) (p1 p2 : Pt)
    (hm : 0 < (interiorArgmax points p1 p2).2) :
    1 ≤ (interiorArgmax points p1 p2).1 ∧
      (interiorArgmax points p1 p2).1 + 2 ≤ points.length ∧
      perpendicular_distance_sq
        (points.getD (interiorArgmax points p1 p2).1 ptZero) p1 p2 =
        (interiorArgmax points p1 p2).2 ∧
      ∀ i, 1 ≤ i → i < (interiorArgmax points p1 p2).1 →
        perpendicular_distance_sq (points.getD i ptZero) p1 p2 <
          (interiorArgmax points p1 p2).2 := by
  have hdef : interiorArgmax points p1 p2 =
      (List.range' 1 (points.length - 2)).foldl
        (argmaxStep (fun i =>
          perpendicular_distance_sq (points.getD i ptZero) p1 p2)) (0, 0) := rfl
  rw [hdef] at hm ⊢
  rcases (argmaxFold_spec _ _ (0, 0) (List.pairwise_lt_range' 1 _ 1)).2.2 with
    heq | ⟨h1, h2, _, h4⟩
  · rw [heq] at hm; norm_num at hm
  · rw [List.mem_range'_1] at h1
    obtain ⟨ha, hb⟩ := h1
    refine ⟨ha, by omega, h2, ?_⟩
    intro i hi hlt
    refine h4 i ?_ hlt
    rw [List.mem_range'_1]
    omega

/-- If `pos` is the first interior index attaining the strictly positive
maximum squared distance `m0`, the running-argmax loop returns exactly
`(pos, m0)`. -/
theorem interiorArgmax_eq (points : List Pt) (p1 p2 : Pt) (pos : ℕ) (m0 : ℚ)
    (h1 : 1 ≤ pos) (h2 : pos + 2 ≤ points.length)
    (hval : perpendicular_distance_sq (points.getD pos ptZero) p1 p2 = m0)
    (hm : 0 < m0)
    (hbefore : ∀ i, 1 ≤ i → i < pos →
      perpendicular_distance_sq (points.getD i ptZero) p1 p2 < m0)
    (hall : ∀ i, 1 ≤ i → i + 2 ≤ points.length →
      perpendicular_distance_sq (points.getD i ptZero) p1 p2 ≤ m0) :
    interiorArgmax points p1 p2 = (pos, m0) := by
  have hub : m0 ≤ (interiorArgmax points p1 p2).2 := by
    rw [← hval]; exact interiorArgmax_bound points p1 p2 pos h1 h2
  have hmpos : 0 < (interiorArgmax points p1 p2).2 := lt_of_lt_of_le hm hub
  obtain ⟨k1, k2, k3, k4⟩ := interiorArgmax_pos_spec points p1 p2 hmpos
  have hle : (interiorArgmax points p1 p2).2 ≤ m0 := by
    rw [← k3]; exact hall _ k1 k2
  have hmeq : (interiorArgmax points p1 p2).2 = m0 := le_antisymm hle hub
  have hieq : (interiorArgmax points p1 p2).1 = pos := by
    rcases lt_trichotomy (interiorArgmax points p1 p2).1 pos with hlt | heq | hgt
    · exact absurd (hmeq ▸ k3) (ne_of_lt (hbefore _ k1 hlt))
    · exact heq
    · exact absurd (hmeq ▸ hval) (ne_of_lt (k4 pos h1 hgt))
  exact Prod.ext hieq hmeq

/-- One unfolding step of `rdpF` at positive fuel. -/
theorem rdpF_succ (fuel : ℕ) (points : List Pt) (epsilon : ℚ) :
    rdpF (fuel + 1) points epsilon =
      if points.length < 3 then some points
      else
        let p1 := points.getD 0 ptZero
        let p2 := points.getD (points.length - 1) ptZero
        let im := interiorArgmax points p1 p2
        if epsilon < 0 ∨ epsilon ^ 2 < im.2 then
          match rdpF fuel (points.take (im.1 + 1)) epsilon,
                rdpF fuel (points.drop im.1) epsilon with
          | some r1, some r2 => some (r1.dropLast ++ r2)
          | _, _ => none
        else some [p1, p2] := rfl

/-- Adding fuel never changes a successful run of `rdpF`. -/
theorem rdpF_mono : ∀ (n : ℕ) (points : List Pt) (epsilon : ℚ)
    (r : List Pt) (m : ℕ), rdpF n points epsilon = some r → n ≤ m →
    rdpF m points epsilon = some r := by
  intro n
  induction n with
  | zero => intro points epsilon r m h; simp [rdpF] at h
  | succ k ih =>
    intro points epsilon r m h hle
    obtain ⟨m', rfl⟩ : ∃ m', m = m' + 1 := ⟨m - 1, by omega⟩
    rw [rdpF_succ] at h
    rw [rdpF_succ]
    by_cases h3 : points.length < 3
    · rw [if_pos h3] at h ⊢; exact h
    · rw [if_neg h3] at h ⊢
      simp only at h ⊢
      by_cases hc : epsilon < 0 ∨ epsilon ^ 2 <
          (interiorArgmax points (points.getD 0 ptZero)
            (points.getD (points.length - 1) ptZero)).2
      · rw [if_pos hc] at h ⊢
        rcases h1 : rdpF k (points.take
            ((interiorArgmax points (points.getD 0 ptZero)
              (points.getD (points.length - 1) ptZero)).1 + 1)) epsilon with
          _ | r1
        · rw [h1] at h; simp at h
        · rcases h2 : rdpF k (points.drop
              ((interiorArgmax points (points.getD 0 ptZero)
                (points.getD (points.length - 1) ptZero)).1)) epsilon with
            _ | r2
          · rw [h1, h2] at h; simp at h
          · rw [h1, h2] at h
            rw [ih _ _ _ _ h1 (by omega), ih _ _ _ _ h2 (by omega)]
            exact h
      · rw [if_neg hc] at h ⊢; exact h

/-- For non-negative tolerances, fuel larger than the list length always
suffices: the Python recursion terminates. -/
theorem rdpF_some (epsilon : ℚ) (heps : 0 ≤ epsilon) :
    ∀ (n : ℕ) (points : List Pt), points.length < n →
    (rdpF n points epsilon).isSome := by
  intro n
  induction n with
  | zero => intro points h; omega
  | succ k ih =>
    intro points hlen
    rw [rdpF_succ]
    by_cases h3 : points.length < 3
    · rw [if_pos h3]; rfl
    · rw [if_neg h3]
      simp only
      set p1 := points.getD 0 ptZero
      set p2 := points.getD (points.length - 1) ptZero
      by_cases hc : epsilon < 0 ∨ epsilon ^ 2 < (interiorArgmax points p1 p2).2
      · rw [if_pos hc]
        have hm : 0 < (interiorArgmax points p1 p2).2 := by
          rcases hc with hneg | hlt
          · exact absurd heps (not_le.mpr hneg)
          · exact lt_of_le_of_lt (sq_nonneg epsilon) hlt
        obtain ⟨k1, k2, _, _⟩ := interiorArgmax_pos_spec points p1 p2 hm
        have ht : (points.take ((interiorArgmax points p1 p2).1 + 1)).length < k := by
          rw [List.length_take]; omega
        have hd : (points.drop (interiorArgmax points p1 p2).1).length < k := by
          rw [List.length_drop]; omega
        obtain ⟨r1, hr1⟩ := Option.isSome_iff_exists.mp (ih _ ht)
        obtain ⟨r2, hr2⟩ := Option.isSome_iff_exists.mp (ih _ hd)
        rw [hr1, hr2]
        rfl
      · rw [if_neg hc]; rfl

/-- For non-negative tolerances, any sufficient fuel computes
`rdp_simplify`. -/
theorem rdpF_eq_rdp (epsilon : ℚ) (heps : 0 ≤ epsilon) (points : List Pt)
    (n : ℕ) (hn : points.length < n) :
    rdpF n points epsilon = some (rdp_simplify points epsilon) := by
  obtain ⟨r, hr⟩ := Option.isSome_iff_exists.mp
    (rdpF_some epsilon heps (points.length + 1) points (by omega))
  have : rdp_simplify points epsilon = r := by
    unfold rdp_simplify
    rw [hr]; rfl
  rw [this]
  exact rdpF_mono _ _ _ _ _ hr (by omega)

/-- Recursion equation: short inputs (fewer than 3 vertices) are
returned unchanged. -/
theorem rdp_simplify_short (points : List Pt) (epsilon : ℚ)
    (h3 : points.length < 3) : rdp_simplify points epsilon = points := by
  unfold rdp_simplify
  rw [rdpF_succ, if_pos h3]
  rfl

/-- Recursion equation: when the maximum squared interior distance does
not exceed the squared tolerance, the result is the pair of endpoints. -/
theorem rdp_simplify_flat (points : List Pt) (epsilon : ℚ)
    (h3 : ¬ points.length < 3)
    (hc : ¬ (epsilon < 0 ∨ epsilon ^ 2 <
      (interiorArgmax points (points.getD 0 ptZero)
        (points.getD (points.length - 1) ptZero)).2)) :
    rdp_simplify points epsilon =
      [points.getD 0 ptZero, points.getD (points.length - 1) ptZero] := by
  unfold rdp_simplify
  rw [rdpF_succ, if_neg h3]
  simp only
  rw [if_neg hc]
  rfl

/-- Recursion equation: when the maximum squared interior distance
exceeds the squared tolerance, the list is split at the first argmax and
the two simplifications are concatenated with the joint dropped. -/
theorem rdp_simplify_split (points : List Pt) (epsilon : ℚ)
    (heps : 0 ≤ epsilon) (h3 : ¬ points.length < 3)
    (hc : epsilon ^ 2 <
      (interiorArgmax points (points.getD 0 ptZero)
        (points.getD (points.length - 1) ptZero)).2) :
    rdp_simplify points epsilon =
      (rdp_simplify (points.take
        ((interiorArgmax points (points.getD 0 ptZero)
          (points.getD (points.length - 1) ptZero)).1 + 1)) epsilon).dropLast ++
      rdp_simplify (points.drop
        ((interiorArgmax points (points.getD 0 ptZero)
          (points.getD (points.length - 1) ptZero)).1)) epsilon := by
  set p1 := points.getD 0 ptZero
  set p2 := points.getD (points.length - 1) ptZero
  have hm : 0 < (interiorArgmax points p1 p2).2 :=
    lt_of_le_of_lt (sq_nonneg epsilon) hc
  obtain ⟨k1, k2, _, _⟩ := interiorArgmax_pos_spec points p1 p2 hm
  have ht : (points.take ((interiorArgmax points p1 p2).1 + 1)).length <
      points.length := by
    rw [List.length_take]; omega
  have hd : (points.drop (interiorArgmax points p1 p2).1).length <
      points.length := by
    rw [List.length_drop]; omega
  have e1 := rdpF_eq_rdp epsilon heps
    (points.take ((interiorArgmax points p1 p2).1 + 1)) points.length (by omega)
  have e2 := rdpF_eq_rdp epsilon heps
    (points.drop (interiorArgmax points p1 p2).1) points.length (by omega)
  conv =>
    lhs
    unfold rdp_simplify
  rw [rdpF_succ, if_neg h3]
  simp only
  rw [if_pos (Or.inr hc), e1, e2]
  rfl

theorem head?_eq_some_getD (l : List Pt) (h : l ≠ []) :
    l.head? = some (l.getD 0 ptZero) := by
  rw [List.head?_eq_getElem?, List.getD_eq_getElem?_getD,
    List.getElem?_eq_getElem (List.length_pos.mpr h)]
  rfl

theorem getLast?_eq_some_getD (l : List Pt) (h : l ≠ []) :
    l.getLast? = some (l.getD (l.length - 1) ptZero) := by
  have hl : l.length - 1 < l.length := by
    have := List.length_pos.mpr h; omega
  rw [List.getLast?_eq_getElem?, List.getD_eq_getElem?_getD,
    List.getElem?_eq_getElem hl]
  rfl

theorem head?_take (l : List Pt) (j : ℕ) :
    (l.take (j + 1)).head? = l.head? := by
  rw [List.head?_eq_getElem?, List.head?_eq_getElem?,
    List.getElem?_take_of_lt (Nat.succ_pos j)]

theorem getLast?_take (l : List Pt) (j : ℕ) (h : j + 1 ≤ l.length) :
    (l.take (j + 1)).getLast? = l[j]? := by
  rw [List.getLast?_eq_getElem?, List.length_take]
  have : min (j + 1) l.length - 1 = j := by omega
  rw [this, List.getElem?_take_of_lt (Nat.lt_succ_self j)]

theorem head?_drop (l : List Pt) (j : ℕ) :
    (l.drop j).head? = l[j]? := by
  rw [List.head?_eq_getElem?, List.getElem?_drop]
  simp

theorem getLast?_drop_eq (l : List Pt) (j : ℕ) (h : j < l.length) :
    (l.drop j).getLast? = l.getLast? := by
  rw [List.getLast?_eq_getElem?, List.getLast?_eq_getElem?,
    List.getElem?_drop, List.length_drop]
  congr 1
  omega

theorem head?_dropLast (l : List Pt) (h : 2 ≤ l.length) :
    l.dropLast.head? = l.head? := by
  rw [List.head?_eq_getElem?, List.head?_eq_getElem?, List.getElem?_dropLast]
  rw [if_pos (by omega)]

theorem getD_eq_getElem (l : List Pt) (i : ℕ) (h : i < l.length) :
    l.getD i ptZero = l[i] := by
  rw [List.getD_eq_getElem?_getD, List.getElem?_eq_getElem h]
  rfl

/-- The simplified polyline is a sublist (order-preserving selection) of
the input. -/
theorem rdp_simplify_sublist (epsilon : ℚ) (heps : 0 ≤ epsilon) :
    ∀ (n : ℕ) (points : List Pt), points.length ≤ n →
      List.Sublist (rdp_simplify points epsilon) points := by
  intro n
  induction n using Nat.strong_induction_on with
  | _ n ih =>
    intro points hlen
    by_cases h3 : points.length < 3
    · rw [rdp_simplify_short points epsilon h3]
    · by_cases hc : epsilon < 0 ∨ epsilon ^ 2 <
          (interiorArgmax points (points.getD 0 ptZero)
            (points.getD (points.length - 1) ptZero)).2
      · have hc' : epsilon ^ 2 <
            (interiorArgmax points (points.getD 0 ptZero)
              (points.getD (points.length - 1) ptZero)).2 := by
          rcases hc with hneg | h
          · exact absurd heps (not_le.mpr hneg)
          · exact h
        have hm : 0 < (interiorArgmax points (points.getD 0 ptZero)
            (points.getD (points.length - 1) ptZero)).2 :=
          lt_of_le_of_lt (sq_nonneg epsilon) hc'
        rw [rdp_simplify_split points epsilon heps h3 hc']
        obtain ⟨k1, k2, _, _⟩ := interiorArgmax_pos_spec points
          (points.getD 0 ptZero) (points.getD (points.length - 1) ptZero) hm
        set j := (interiorArgmax points (points.getD 0 ptZero)
          (points.getD (points.length - 1) ptZero)).1 with hj
        have hsub1 : List.Sublist (rdp_simplify (points.take (j + 1)) epsilon)
            (points.take (j + 1)) := by
          refine ih (j + 1) (by omega) _ ?_
          rw [List.length_take]; omega
        have hsub2 : List.Sublist (rdp_simplify (points.drop j) epsilon)
            (points.drop j) := by
          refine ih (points.length - j) (by omega) _ ?_
          rw [List.length_drop]
        have htakej : points.take (j + 1) = points.take j ++ [points[j]] := by
          rw [List.take_succ, List.getElem?_eq_getElem (by omega : j < points.length)]
          rfl
        have hdl : List.Sublist
            ((rdp_simplify (points.take (j + 1)) epsilon).dropLast)
            (points.take j) := by
          nth_rewrite 2 [htakej] at hsub1
          rcases List.sublist_append_iff.mp hsub1 with ⟨a, b, hab, ha, hb⟩
          rcases List.sublist_singleton.mp hb with rfl | rfl
          · rw [List.append_nil] at hab
            rw [hab]
            exact List.Sublist.trans (List.dropLast_sublist a) ha
          · rw [hab, List.dropLast_concat]
            exact ha
        have hmain : List.Sublist
            ((rdp_simplify (points.take (j + 1)) epsilon).dropLast ++
              rdp_simplify (points.drop j) epsilon)
            (points.take j ++ points.drop j) :=
          List.Sublist.append hdl hsub2
        rw [List.take_append_drop] at hmain
        exact hmain
      · rw [rdp_simplify_flat points epsilon h3 hc]
        have h0 : points.getD 0 ptZero = points[0] :=
          getD_eq_getElem points 0 (by omega)
        have hl : points.getD (points.length - 1) ptZero =
            points[points.length - 1] := getD_eq_getElem points _ (by omega)
        rw [h0, hl]
        have : List.Sublist ([points[0]] ++ [points[points.length - 1]])
            (points.take 1 ++ points.drop 1) := by
          refine List.Sublist.append ?_ ?_
          · have : points.take 1 = [points[0]] := by
              rw [List.take_succ, List.take_zero,
                List.getElem?_eq_getElem (by omega : 0 < points.length)]
              rfl
            rw [this]
          · rw [List.singleton_sublist]
            have hm2 : (points.drop 1)[points.length - 2]? =
                some (points[points.length - 1]) := by
              rw [List.getElem?_drop]
              have h12 : 1 + (points.length - 2) = points.length - 1 := by
                omega
              rw [h12, List.getElem?_eq_getElem
                (by omega : points.length - 1 < points.length)]
            exact List.getElem?_mem hm2
        rw [List.take_append_drop] at this
        exact this

/-- Endpoint preservation and length lower bound for `rdp_simplify`
(non-negative tolerance): the head and last vertex survive, and inputs
with at least two vertices keep at least two. -/
theorem rdp_simplify_endpoints_aux (epsilon : ℚ) (heps : 0 ≤ epsilon) :
    ∀ (n : ℕ) (points : List Pt), points.length ≤ n →
      (rdp_simplify points epsilon).head? = points.head? ∧
      (rdp_simplify points epsilon).getLast? = points.getLast? ∧
      (2 ≤ points.length → 2 ≤ (rdp_simplify points epsilon).length) := by
  intro n
  induction n using Nat.strong_induction_on with
  | _ n ih =>
    intro points hlen
    by_cases h3 : points.length < 3
    · rw [rdp_simplify_short points epsilon h3]
      exact ⟨rfl, rfl, fun h => h⟩
    · have hne : points ≠ [] := by
        intro h; rw [h] at h3; exact h3 (by norm_num)
      by_cases hc : epsilon < 0 ∨ epsilon ^ 2 <
          (interiorArgmax points (points.getD 0 ptZero)
            (points.getD (points.length - 1) ptZero)).2
      · have hc' : epsilon ^ 2 <
            (interiorArgmax points (points.getD 0 ptZero)
              (points.getD (points.length - 1) ptZero)).2 := by
          rcases hc with hneg | h
          · exact absurd heps (not_le.mpr hneg)
          · exact h
        have hm : 0 < (interiorArgmax points (points.getD 0 ptZero)
            (points.getD (points.length - 1) ptZero)).2 :=
          lt_of_le_of_lt (sq_nonneg epsilon) hc'
        rw [rdp_simplify_split points epsilon heps h3 hc']
        obtain ⟨k1, k2, _, _⟩ := interiorArgmax_pos_spec points
          (points.getD 0 ptZero) (points.getD (points.length - 1) ptZero) hm
        set j := (interiorArgmax points (points.getD 0 ptZero)
          (points.getD (points.length - 1) ptZero)).1 with hj
        have htlen : (points.take (j + 1)).length = j + 1 := by
          rw [List.length_take]; omega
        have hdlen : (points.drop j).length = points.length - j := by
          rw [List.length_drop]
        obtain ⟨ihh1, ihl1, ihn1⟩ := ih (j + 1) (by omega) (points.take (j + 1))
          (by omega)
        obtain ⟨ihh2, ihl2, ihn2⟩ := ih (points.length - j) (by omega)
          (points.drop j) (by omega)
        have hr1len : 2 ≤ (rdp_simplify (points.take (j + 1)) epsilon).length :=
          ihn1 (by omega)
        have hr2len : 2 ≤ (rdp_simplify (points.drop j) epsilon).length :=
          ihn2 (by omega)
        have hr2ne : rdp_simplify (points.drop j) epsilon ≠ [] := by
          intro h; rw [h] at hr2len; simp at hr2len
        have hdlne : (rdp_simplify (points.take (j + 1)) epsilon).dropLast ≠ [] := by
          intro h
          have := congrArg List.length h
          rw [List.length_dropLast] at this
          simp at this
          omega
        refine ⟨?_, ?_, ?_⟩
        · rw [List.head?_append, head?_dropLast _ hr1len, ihh1,
            head?_take points j]
          rcases Option.isSome_iff_exists.mp
            (by rw [List.head?_eq_getElem?,
              List.getElem?_eq_getElem (List.length_pos.mpr hne)]; rfl :
              points.head?.isSome) with ⟨v, hv⟩
          rw [hv]
          rfl
        · rw [List.getLast?_append, ihl2, getLast?_drop_eq points j (by omega)]
          rcases Option.isSome_iff_exists.mp
            (by rw [List.getLast?_eq_getElem?,
              List.getElem?_eq_getElem (by omega : points.length - 1 <
                points.length)]; rfl : points.getLast?.isSome) with ⟨v, hv⟩
          rw [hv]
          rfl
        · intro _
          rw [List.length_append, List.length_dropLast]
          omega
      · rw [rdp_simplify_flat points epsilon h3 hc]
        refine ⟨?_, ?_, fun _ => by norm_num⟩
        · rw [head?_eq_some_getD points hne]
          rfl
        · rw [getLast?_eq_some_getD points hne]
          rfl

/-- Every vertex of the list is within the maximum squared interior
distance of the chord (the endpoints are at distance 0). -/
theorem mem_phi_le (points : List Pt) (h3 : 3 ≤ points.length) (v : Pt)
    (hv : v ∈ points) :
    perpendicular_distance_sq v (points.getD 0 ptZero)
        (points.getD (points.length - 1) ptZero) ≤
      (interiorArgmax points (points.getD 0 ptZero)
        (points.getD (points.length - 1) ptZero)).2 := by
  obtain ⟨i, hi, hvi⟩ := List.mem_iff_getElem.mp hv
  rw [← getD_eq_getElem points i hi] at hvi
  by_cases h0 : i = 0
  · rw [h0] at hvi
    rw [← hvi, perpendicular_distance_sq_self_left]
    exact interiorArgmax_nonneg points _ _
  · by_cases hl : i = points.length - 1
    · rw [hl] at hvi
      rw [← hvi, perpendicular_distance_sq_self_right]
      exact interiorArgmax_nonneg points _ _
    · have := interiorArgmax_bound points (points.getD 0 ptZero)
        (points.getD (points.length - 1) ptZero) i (by omega) (by omega)
      rw [hvi] at this
      exact this

/-- Strict bound: below the first argmax index `j` (in particular on the
proper prefix kept by the recursive split), every vertex other than the
split vertex is at strictly smaller squared distance. -/
theorem take_phi_lt (points : List Pt)
    (hm : 0 < (interiorArgmax points (points.getD 0 ptZero)
      (points.getD (points.length - 1) ptZero)).2) (v : Pt)
    (hv : v ∈ points.take ((interiorArgmax points (points.getD 0 ptZero)
      (points.getD (points.length - 1) ptZero)).1 + 1))
    (hne : v ≠ points.getD (interiorArgmax points (points.getD 0 ptZero)
      (points.getD (points.length - 1) ptZero)).1 ptZero) :
    perpendicular_distance_sq v (points.getD 0 ptZero)
        (points.getD (points.length - 1) ptZero) <
      (interiorArgmax points (points.getD 0 ptZero)
        (points.getD (points.length - 1) ptZero)).2 := by
  obtain ⟨k1, k2, k3, k4⟩ := interiorArgmax_pos_spec points
    (points.getD 0 ptZero) (points.getD (points.length - 1) ptZero) hm
  set j := (interiorArgmax points (points.getD 0 ptZero)
    (points.getD (points.length - 1) ptZero)).1 with hj
  obtain ⟨i, hi, hvi⟩ := List.mem_iff_getElem.mp hv
  rw [List.getElem_take] at hvi
  have hilen : i < points.length := by
    have := hi
    rw [List.length_take] at this
    omega
  have hij : i < j + 1 := by
    have := hi
    rw [List.length_take] at this
    omega
  rw [← getD_eq_getElem points i hilen] at hvi
  by_cases h0 : i = 0
  · rw [h0] at hvi
    rw [← hvi, perpendicular_distance_sq_self_left]
    exact hm
  · by_cases hjeq : i = j
    · rw [hjeq] at hvi
      exact absurd hvi.symm hne
    · have := k4 i (by omega) (by omega)
      rw [hvi] at this
      exact this

/-- The split vertex value does not occur before index `j` (it would
contradict first-argmax), so the prefix keeps exactly one copy of it. -/
theorem count_joint_take (points : List Pt)
    (hm : 0 < (interiorArgmax points (points.getD 0 ptZero)
      (points.getD (points.length - 1) ptZero)).2) :
    (points.take ((interiorArgmax points (points.getD 0 ptZero)
        (points.getD (points.length - 1) ptZero)).1 + 1)).count
      (points.getD (interiorArgmax points (points.getD 0 ptZero)
        (points.getD (points.length - 1) ptZero)).1 ptZero) = 1 := by
  obtain ⟨k1, k2, k3, k4⟩ := interiorArgmax_pos_spec points
    (points.getD 0 ptZero) (points.getD (points.length - 1) ptZero) hm
  set j := (interiorArgmax points (points.getD 0 ptZero)
    (points.getD (points.length - 1) ptZero)).1 with hj
  have hnot : points.getD j ptZero ∉ points.take j := by
    intro hmem
    obtain ⟨i, hi, hvi⟩ := List.mem_iff_getElem.mp hmem
    rw [List.getElem_take] at hvi
    have hjlen : i < j := by
      have := hi
      rw [List.length_take] at this
      omega
    have hilen : i < points.length := by omega
    rw [← getD_eq_getElem points i hilen] at hvi
    by_cases h0 : i = 0
    · rw [h0] at hvi
      have heq0 := k3
      rw [← hvi, perpendicular_distance_sq_self_left] at heq0
      rw [← heq0] at hm
      exact lt_irrefl 0 hm
    · have hlt := k4 i (by omega) (by omega)
      rw [hvi] at hlt
      rw [k3] at hlt
      exact lt_irrefl _ hlt
  have htake : points.take (j + 1) = points.take j ++ [points.getD j ptZero] := by
    rw [List.take_succ, List.getElem?_eq_getElem (by omega : j < points.length),
      getD_eq_getElem points j (by omega)]
    rfl
  rw [htake, List.count_append, List.count_eq_zero_of_not_mem hnot]
  simp

theorem getD_zero_of_head? (l : List Pt) (v : Pt) (h : l.head? = some v) :
    l.getD 0 ptZero = v := by
  rw [List.getD_eq_getElem?_getD, ← List.head?_eq_getElem?, h]
  rfl

theorem getD_last_of_getLast? (l : List Pt) (v : Pt) (h : l.getLast? = some v) :
    l.getD (l.length - 1) ptZero = v := by
  rw [List.getD_eq_getElem?_getD, ← List.getLast?_eq_getElem?, h]
  rfl

/-- Idempotence of the simplifier for non-negative tolerances: the key
inductive argument is that the split vertex of the original run is the
first argmax of the simplified list again, so the second run re-splits at
exactly the same place. -/
theorem rdp_simplify_idem_aux (epsilon : ℚ) (heps : 0 ≤ epsilon) :
    ∀ (n : ℕ) (points : List Pt), points.length ≤ n →
      rdp_simplify (rdp_simplify points epsilon) epsilon =
        rdp_simplify points epsilon := by
  intro n
  induction n using Nat.strong_induction_on with
  | _ n ih =>
    intro points hlen
    by_cases h3 : points.length < 3
    · rw [rdp_simplify_short points epsilon h3,
        rdp_simplify_short points epsilon h3]
    · have hne : points ≠ [] := by
        intro h; rw [h] at h3; exact h3 (by norm_num)
      by_cases hc : epsilon < 0 ∨ epsilon ^ 2 <
          (interiorArgmax points (points.getD 0 ptZero)
            (points.getD (points.length - 1) ptZero)).2
      · have hc' : epsilon ^ 2 <
            (interiorArgmax points (points.getD 0 ptZero)
              (points.getD (points.length - 1) ptZero)).2 := by
          rcases hc with hneg | h
          · exact absurd heps (not_le.mpr hneg)
          · exact h
        have hm : 0 < (interiorArgmax points (points.getD 0 ptZero)
            (points.getD (points.length - 1) ptZero)).2 :=
          lt_of_le_of_lt (sq_nonneg epsilon) hc'
        obtain ⟨k1, k2, k3, k4⟩ := interiorArgmax_pos_spec points
          (points.getD 0 ptZero) (points.getD (points.length - 1) ptZero) hm
        have hcount := count_joint_take points hm
        rw [rdp_simplify_split points epsilon heps h3 hc']
        set j := (interiorArgmax points (points.getD 0 ptZero)
          (points.getD (points.length - 1) ptZero)).1 with hj
        set m := (interiorArgmax points (points.getD 0 ptZero)
          (points.getD (points.length - 1) ptZero)).2 with hmm
        set pj := points.getD j ptZero with hpj
        set r1 := rdp_simplify (points.take (j + 1)) epsilon with hr1
        set r2 := rdp_simplify (points.drop j) epsilon with hr2
        -- lengths and endpoint data of the two sub-results
        obtain ⟨e1h, e1l, e1n⟩ := rdp_simplify_endpoints_aux epsilon heps
          (j + 1) (points.take (j + 1)) (by rw [List.length_take]; omega)
        obtain ⟨e2h, e2l, e2n⟩ := rdp_simplify_endpoints_aux epsilon heps
          (points.length - j) (points.drop j) (by rw [List.length_drop])
        rw [← hr1] at e1h e1l e1n
        rw [← hr2] at e2h e2l e2n
        have hr1len : 2 ≤ r1.length := e1n (by rw [List.length_take]; omega)
        have hr2len : 2 ≤ r2.length := e2n (by rw [List.length_drop]; omega)
        have hjget : points[j]? = some pj := by
          rw [List.getElem?_eq_getElem (by omega : j < points.length), hpj,
            getD_eq_getElem points j (by omega)]
        have hr1last : r1.getLast? = some pj := by
          rw [e1l, getLast?_take points j (by omega), hjget]
        have hr2head : r2.head? = some pj := by
          rw [e2h, head?_drop, hjget]
        have hr1head : r1.head? = some (points.getD 0 ptZero) := by
          rw [e1h, head?_take, head?_eq_some_getD points hne]
        have hr2last : r2.getLast? = some
            (points.getD (points.length - 1) ptZero) := by
          rw [e2l, getLast?_drop_eq points j (by omega),
            getLast?_eq_some_getD points hne]
        -- decompose r1 around its last element
        obtain ⟨ys, hys⟩ := List.getLast?_eq_some_iff.mp hr1last
        have hysl : ys.length = r1.length - 1 := by
          rw [hys, List.length_append, List.length_singleton]
          omega
        have hysne : ys ≠ [] := by
          intro h
          rw [h] at hysl
          simp at hysl
          omega
        have hdropl : r1.dropLast = ys := by rw [hys, List.dropLast_concat]
        have hpjys : pj ∉ ys := by
          have hcnt1 : r1.count pj ≤ 1 := by
            have hsub := rdp_simplify_sublist epsilon heps (j + 1)
              (points.take (j + 1)) (by rw [List.length_take]; omega)
            rw [← hr1] at hsub
            have := hsub.count_le pj
            rw [hcount] at this
            exact this
          rw [hys, List.count_append] at hcnt1
          simp at hcnt1
          intro hmem
          have hpos := List.count_pos_iff.mpr hmem
          omega
        -- chord of the concatenation
        have hQhead : (r1.dropLast ++ r2).head? =
            some (points.getD 0 ptZero) := by
          rw [List.head?_append, head?_dropLast r1 hr1len, hr1head]
          rfl
        have hQlast : (r1.dropLast ++ r2).getLast? =
            some (points.getD (points.length - 1) ptZero) := by
          rw [List.getLast?_append, hr2last]
          rfl
        have hQ0 : (r1.dropLast ++ r2).getD 0 ptZero =
            points.getD 0 ptZero := getD_zero_of_head? _ _ hQhead
        have hQL : (r1.dropLast ++ r2).getD
            ((r1.dropLast ++ r2).length - 1) ptZero =
            points.getD (points.length - 1) ptZero :=
          getD_last_of_getLast? _ _ hQlast
        have hQlen : (r1.dropLast ++ r2).length = ys.length + r2.length := by
          rw [hdropl, List.length_append]
        have hQ3 : ¬ (r1.dropLast ++ r2).length < 3 := by
          rw [hQlen]; omega
        -- value at the split position
        have hQpos : (r1.dropLast ++ r2).getD ys.length ptZero = pj := by
          rw [List.getD_eq_getElem?_getD, hdropl,
            List.getElem?_append_right (le_refl ys.length), Nat.sub_self,
            ← List.head?_eq_getElem?, hr2head]
          rfl
        -- the second run finds the same argmax
        have hQargmax : interiorArgmax (r1.dropLast ++ r2)
            (points.getD 0 ptZero) (points.getD (points.length - 1) ptZero) =
            (ys.length, m) := by
          refine interiorArgmax_eq _ _ _ ys.length m ?_ ?_ ?_ hm ?_ ?_
          · omega
          · rw [hQlen]; omega
          · rw [hQpos]; exact k3
          · intro i hi1 hilt
            have hQi : (r1.dropLast ++ r2).getD i ptZero ∈ ys := by
              rw [List.getD_eq_getElem?_getD, hdropl,
                List.getElem?_append_left (by omega : i < ys.length)]
              rw [List.getElem?_eq_getElem (by omega : i < ys.length)]
              exact List.getElem_mem _
            have hvtake : (r1.dropLast ++ r2).getD i ptZero ∈
                points.take (j + 1) := by
              have hsub := rdp_simplify_sublist epsilon heps (j + 1)
                (points.take (j + 1)) (by rw [List.length_take]; omega)
              rw [← hr1] at hsub
              have hv1 : (r1.dropLast ++ r2).getD i ptZero ∈ ys ++ [pj] :=
                List.mem_append_left _ hQi
              rw [← hys] at hv1
              exact hsub.subset hv1
            have hvne : (r1.dropLast ++ r2).getD i ptZero ≠ pj := by
              intro h
              rw [h] at hQi
              exact hpjys hQi
            exact take_phi_lt points hm _ hvtake hvne
          · intro i hi1 hile
            have hQmem : (r1.dropLast ++ r2).getD i ptZero ∈ points := by
              have hilen : i < (r1.dropLast ++ r2).length := by omega
              rw [List.getD_eq_getElem?_getD,
                List.getElem?_eq_getElem hilen]
              have := List.getElem_mem (l := r1.dropLast ++ r2) (hilen)
              rcases List.mem_append.mp this with hin1 | hin2
              · have hsub := rdp_simplify_sublist epsilon heps (j + 1)
                  (points.take (j + 1)) (by rw [List.length_take]; omega)
                rw [← hr1] at hsub
                have hin1' : (r1.dropLast ++ r2)[i] ∈ r1 :=
                  (List.dropLast_sublist r1).subset hin1
                exact (List.take_sublist (j + 1) points).subset
                  (hsub.subset hin1')
              · have hsub := rdp_simplify_sublist epsilon heps
                  (points.length - j) (points.drop j)
                  (by rw [List.length_drop])
                rw [← hr2] at hsub
                exact (List.drop_sublist j points).subset (hsub.subset hin2)
            exact mem_phi_le points (by omega) _ hQmem
        -- second run takes the same branch and splits at the same place
        have hcQ : epsilon ^ 2 < (interiorArgmax (r1.dropLast ++ r2)
            ((r1.dropLast ++ r2).getD 0 ptZero)
            ((r1.dropLast ++ r2).getD ((r1.dropLast ++ r2).length - 1)
              ptZero)).2 := by
          rw [hQ0, hQL, hQargmax]
          exact hc'
        rw [rdp_simplify_split (r1.dropLast ++ r2) epsilon heps hQ3 hcQ]
        have hidx : (interiorArgmax (r1.dropLast ++ r2)
            ((r1.dropLast ++ r2).getD 0 ptZero)
            ((r1.dropLast ++ r2).getD ((r1.dropLast ++ r2).length - 1)
              ptZero)).1 = ys.length := by
          rw [hQ0, hQL, hQargmax]
        rw [hidx]
        have htq : (r1.dropLast ++ r2).take (ys.length + 1) = r1 := by
          rw [hdropl, List.take_append, List.take_one, hr2head, hys]
          rfl
        have hdq : (r1.dropLast ++ r2).drop ys.length = r2 := by
          rw [hdropl, List.drop_left' rfl]
        rw [htq, hdq]
        have hidem1 : rdp_simplify r1 epsilon = r1 := by
          rw [hr1]
          exact ih (j + 1) (by omega) (points.take (j + 1))
            (by rw [List.length_take]; omega)
        have hidem2 : rdp_simplify r2 epsilon = r2 := by
          rw [hr2]
          exact ih (points.length - j) (by omega) (points.drop j)
            (by rw [List.length_drop])
        rw [hidem1, hidem2]
      · rw [rdp_simplify_flat points epsilon h3 hc]
        exact rdp_simplify_short _ epsilon (by norm_num)

/-- On three collinear points all interior distances are `0`, so the
farthest-point loop never updates and the split index stays `0`. -/
theorem interiorArgmax_collinear3 :
    interiorArgmax [(⟨0,0⟩ : Pt), ⟨1,0⟩, ⟨2,0⟩]
      ([(⟨0,0⟩ : Pt), ⟨1,0⟩, ⟨2,0⟩].getD 0 ptZero)
      ([(⟨0,0⟩ : Pt), ⟨1,0⟩, ⟨2,0⟩].getD
        ([(⟨0,0⟩ : Pt), ⟨1,0⟩, ⟨2,0⟩].length - 1) ptZero) = (0, 0) := by
  norm_num [interiorArgmax, argmaxStep, perpendicular_distance_sq,
    segLenSq, pdNum, List.range']

/-- With a negative tolerance and split index `0`, `rdp_simplify`
recurses on `points[0:]`, i.e. on the whole list again. -/
theorem rdpF_collinear_step (k : ℕ) :
    rdpF (k + 1) [⟨0,0⟩, ⟨1,0⟩, ⟨2,0⟩] (-1) =
      match rdpF k [(⟨0,0⟩ : Pt)] (-1),
            rdpF k [(⟨0,0⟩ : Pt), ⟨1,0⟩, ⟨2,0⟩] (-1) with
      | some r1, some r2 => some (r1.dropLast ++ r2)
      | _, _ => none := by
  rw [rdpF_succ]
  rw [if_neg (by norm_num : ¬ ([(⟨0,0⟩ : Pt), ⟨1,0⟩, ⟨2,0⟩].length < 3))]
  simp only
  rw [interiorArgmax_collinear3, if_pos (Or.inl (by norm_num : (-1 : ℚ) < 0))]
  norm_num

/-- C2: the path simplifier follows Ramer-Douglas-Peucker with tolerance
1.0.  (a) Inputs with fewer than 3 vertices (in particular 0 or 1) are
returned unchanged.  (b) If no interior vertex is farther than the
tolerance from the chord (squared distance ≤ 1 = 1², equivalent to
distance ≤ 1), exactly the two endpoints are returned.  (c) If the first
vertex `j` of maximum perpendicular distance exceeds the tolerance
(squared distance > 1), the simplifier recurses on `points[:j+1]` and
`points[j:]` and concatenates the results dropping the duplicated joint
vertex. -/
theorem C2_rdp_characterization :
    (∀ points : List Pt, points.length < 3 → rdp_simplify points 1 = points) ∧
    (∀ points : List Pt, 3 ≤ points.length →
      (∀ i, 1 ≤ i → i + 2 ≤ points.length →
        perpendicular_distance_sq (points.getD i ptZero)
          (points.getD 0 ptZero) (points.getD (points.length - 1) ptZero) ≤ 1) →
      rdp_simplify points 1 =
        [points.getD 0 ptZero, points.getD (points.length - 1) ptZero]) ∧
    (∀ (points : List Pt) (j : ℕ), 3 ≤ points.length →
      1 ≤ j → j + 2 ≤ points.length →
      1 < perpendicular_distance_sq (points.getD j ptZero)
        (points.getD 0 ptZero) (points.getD (points.length - 1) ptZero) →
      (∀ i, 1 ≤ i → i < j →
        perpendicular_distance_sq (points.getD i ptZero)
            (points.getD 0 ptZero) (points.getD (points.length - 1) ptZero) <
          perpendicular_distance_sq (points.getD j ptZero)
            (points.getD 0 ptZero) (points.getD (points.length - 1) ptZero)) →
      (∀ i, 1 ≤ i → i + 2 ≤ points.length →
        perpendicular_distance_sq (points.getD i ptZero)
            (points.getD 0 ptZero) (points.getD (points.length - 1) ptZero) ≤
          perpendicular_distance_sq (points.getD j ptZero)
            (points.getD 0 ptZero) (points.getD (points.length - 1) ptZero)) →
      rdp_simplify points 1 =
        (rdp_simplify (points.take (j + 1)) 1).dropLast ++
          rdp_simplify (points.drop j) 1) := by
  refine ⟨?_, ?_, ?_⟩
  · intro points h3
    exact rdp_simplify_short points 1 h3
  · intro points h3 hbound
    have hmle : (interiorArgmax points (points.getD 0 ptZero)
        (points.getD (points.length - 1) ptZero)).2 ≤ 1 := by
      by_contra hgt
      push_neg at hgt
      have hm : 0 < (interiorArgmax points (points.getD 0 ptZero)
          (points.getD (points.length - 1) ptZero)).2 :=
        lt_trans one_pos hgt
      obtain ⟨k1, k2, k3, _⟩ := interiorArgmax_pos_spec points
        (points.getD 0 ptZero) (points.getD (points.length - 1) ptZero) hm
      have := hbound _ k1 k2
      rw [k3] at this
      exact absurd hgt (not_lt.mpr this)
    refine rdp_simplify_flat points 1 (by omega) ?_
    push_neg
    exact ⟨by norm_num, by rw [one_pow]; exact hmle⟩
  · intro points j h3 hj1 hj2 hgt hfirst hmax
    have hmpos : 0 < perpendicular_distance_sq (points.getD j ptZero)
        (points.getD 0 ptZero) (points.getD (points.length - 1) ptZero) :=
      lt_trans one_pos hgt
    have ham := interiorArgmax_eq points (points.getD 0 ptZero)
      (points.getD (points.length - 1) ptZero) j
      (perpendicular_distance_sq (points.getD j ptZero)
        (points.getD 0 ptZero) (points.getD (points.length - 1) ptZero))
      hj1 hj2 rfl hmpos hfirst hmax
    have hsplit := rdp_simplify_split points 1 (by norm_num) (by omega)
      (by rw [ham, one_pow]; exact hgt)
    rw [ham] at hsplit
    exact hsplit

/-- Witness for C2: on `[(0,0), (0,5), (10,0)]` the interior vertex
`(0,5)` is at squared distance 25 > 1 from the chord, so the simplifier
splits there; both conditions of part (c) are discharged numerically. -/
theorem C2_rdp_characterization_witness :
    rdp_simplify [⟨0,0⟩, ⟨0,5⟩, ⟨10,0⟩] 1 =
      (rdp_simplify [(⟨0,0⟩ : Pt), ⟨0,5⟩] 1).dropLast ++
        rdp_simplify [(⟨0,5⟩ : Pt), ⟨10,0⟩] 1 := by
  have h := C2_rdp_characterization.2.2 [⟨0,0⟩, ⟨0,5⟩, ⟨10,0⟩] 1
    (by norm_num) (by norm_num) (by norm_num)
    (by norm_num [perpendicular_distance_sq, segLenSq, pdNum])
    (by intro i hi1 hi2; omega)
    (by
      intro i hi1 hi2
      norm_num at hi2
      have hi : i = 1 := by omega
      rw [hi])
  simpa using h

/-- C7: applying the path simplifier twice with the fixed tolerance 1.0
gives the same result as applying it once. -/
theorem C7_simplifier_idempotent (points : List Pt) :
    rdp_simplify (rdp_simplify points 1) 1 = rdp_simplify points 1 :=
  rdp_simplify_idem_aux 1 (by norm_num) points.length points (le_refl _)

/-- C10 counterexample: the claim quantifies over every tolerance, but
for the negative tolerance `-1` and the non-empty collinear input
`[(0,0), (1,0), (2,0)]` the recursion of `rdp_simplify` never returns
(all interior distances are 0, `dmax > epsilon` still holds, and the
split index stays 0, so `points[0:]` recurses on the whole list; Python
dies with `RecursionError`), so no output with preserved endpoints
exists: the run is `none` for every amount of fuel. -/
theorem C10_counterexample_divergence :
    rdpDiverges [⟨0,0⟩, ⟨1,0⟩, ⟨2,0⟩] (-1) := by
  intro fuel
  induction fuel with
  | zero => rfl
  | succ k ihk =>
    rw [rdpF_collinear_step k, ihk]
    cases rdpF k [(⟨0,0⟩ : Pt)] (-1) <;> rfl

/-- C10 amended: for every non-empty vertex list and every NON-NEGATIVE
tolerance, the simplifier terminates and its output is a non-empty list
with the same first and last element as the input. -/
theorem C10_endpoints_preserved (points : List Pt) (epsilon : ℚ)
    (hne : points ≠ []) (heps : 0 ≤ epsilon) :
    rdp_simplify points epsilon ≠ [] ∧
    (rdp_simplify points epsilon).head? = points.head? ∧
    (rdp_simplify points epsilon).getLast? = points.getLast? := by
  obtain ⟨h1, h2, _⟩ := rdp_simplify_endpoints_aux epsilon heps
    points.length points (le_refl _)
  refine ⟨?_, h1, h2⟩
  intro hnil
  rw [hnil] at h1
  rw [head?_eq_some_getD points hne] at h1
  exact Option.noConfusion h1

/-- Witness for the amended C10 at a concrete input. -/
theorem C10_endpoints_preserved_witness :
    rdp_simplify [⟨0,0⟩, ⟨7,1⟩, ⟨9,9⟩] 1 ≠ [] ∧
    (rdp_simplify [⟨0,0⟩, ⟨7,1⟩, ⟨9,9⟩] 1).head? =
      ([(⟨0,0⟩ : Pt), ⟨7,1⟩, ⟨9,9⟩]).head? ∧
    (rdp_simplify [⟨0,0⟩, ⟨7,1⟩, ⟨9,9⟩] 1).getLast? =
      ([(⟨0,0⟩ : Pt), ⟨7,1⟩, ⟨9,9⟩]).getLast? :=
  C10_endpoints_preserved [⟨0,0⟩, ⟨7,1⟩, ⟨9,9⟩] 1 (by simp) (by norm_num)

/-! ## Paths, colors, strokes and the overlay state

`QPainterPath` is modelled as a list of move-to / line-to elements (the
only element kinds this program ever creates), with the Qt construction
semantics of `moveTo` (a trailing move-to element is overwritten rather
than appended) and `lineTo` (a segment to the current position is
skipped; on an empty path an initial `MoveTo (0,0)` element is created
first).  `QColor` is modelled as an ARGB quadruple of bytes plus the
validity flag; `QColor(color)` copies and color objects are values
here.  Python floats are `ℚ` as before. -/

inductive PathElem where
  | move (p : Pt)
  | line (p : Pt)
deriving DecidableEq, Repr

/-- The point carried by a path element. -/
def PathElem.pt : PathElem → Pt
  | .move p => p
  | .line p => p

/-- `QPainterPath.moveTo`: overwrite a trailing move-to, else append. -/
def pMoveTo (path : List PathElem) (p : Pt) : List PathElem :=
  match path.getLast? with
  | none => [.move p]
  | some (.move _) => path.dropLast ++ [.move p]
  | some (.line _) => path ++ [.move p]

/-- `QPainterPath.lineTo`: on an empty path Qt first materializes an
initial `MoveTo (0,0)` element; a line to the current position is a
no-op; otherwise a line-to element is appended. -/
def pLineTo (path : List PathElem) (p : Pt) : List PathElem :=
  match path.getLast? with
  | none => if p = ptZero then [.move ptZero] else [.move ptZero, .line p]
  | some e => if e.pt = p then path else path ++ [.line p]

/-- `QColor`: ARGB bytes plus validity (an invalid color results from a
failed name parse). -/
structure QCol where
  valid : Bool
  a : Fin 256
  r : Fin 256
  g : Fin 256
  b : Fin 256
deriving DecidableEq, Repr

/-- One stroke of the store: `(path, color, width)`. -/
structure Stroke where
  path : List PathElem
  color : QCol
  width : ℚ
deriving DecidableEq, Repr

/-- `QRectF` (position and size). -/
structure Rect where
  x : ℚ
  y : ℚ
  w : ℚ
  h : ℚ
deriving DecidableEq, Repr

/-- The mutable state of `OverlayWidget` together with the stroke store
and selection owned by `AnnotationDocker`. -/
structure OvState where
  stored_paths : List Stroke
  selected_indices : Finset ℕ
  undo_stack : List (List Stroke)
  redo_stack : List (List Stroke)
  active_handle : ℕ
  start_pos_doc : Pt
  initial_combined_rect : Rect
  initial_paths_map : List (ℕ × List PathElem)
  initial_widths_map : List (ℕ × ℚ)
  is_selecting_area : Bool
  selection_start_doc : Pt
  selection_current_doc : Pt

/-- `OverlayWidget.commit_state`: push a snapshot of the store (a deep
copy in Python; values here), clear the redo stack, and pop the oldest
entry when the length exceeds 50. -/
def commit_state (st : OvState) : OvState :=
  let u := st.undo_stack ++ [st.stored_paths]
  { st with
    undo_stack := if 50 < u.length then u.tail else u
    redo_stack := [] }

/-- `OverlayWidget.undo`: no-op on an empty history; otherwise push the
current store on the redo stack, pop the last undo entry and install it,
and clear the selection. -/
def undo (st : OvState) : OvState :=
  match st.undo_stack.getLast? with
  | none => st
  | some prev =>
    { st with
      redo_stack := st.redo_stack ++ [st.stored_paths]
      undo_stack := st.undo_stack.dropLast
      stored_paths := prev
      selected_indices := ∅ }

/-- `OverlayWidget.redo`: symmetric to `undo`. -/
def redo (st : OvState) : OvState :=
  match st.redo_stack.getLast? with
  | none => st
  | some nxt =>
    { st with
      undo_stack := st.undo_stack ++ [st.stored_paths]
      redo_stack := st.redo_stack.dropLast
      stored_paths := nxt
      selected_indices := ∅ }

/-- History-affecting operations of a session: `commit_state`, `undo`,
`redo`, and arbitrary store mutations (drawing, deleting, dragging,
clearing - none of them touches the history stacks directly). -/
inductive HistOp where
  | commit
  | undoOp
  | redoOp
  | mutate (s : List Stroke)

def applyOp (st : OvState) : HistOp → OvState
  | .commit => commit_state st
  | .undoOp => undo st
  | .redoOp => redo st
  | .mutate s => { st with stored_paths := s }

/-- The state at overlay creation: empty store, empty selection, empty
history stacks. -/
def initOverlayState : OvState :=
  ⟨[], ∅, [], [], 0, ptZero, ⟨0, 0, 0, 0⟩, [], [], false, ptZero, ptZero⟩

def runOps (ops : List HistOp) : OvState := ops.foldl applyOp initOverlayState

theorem tail_getLast? {α : Type} (l : List α) (h : 2 ≤ l.length) :
    l.tail.getLast? = l.getLast? := by
  rcases l with _ | ⟨a, t⟩
  · simp at h
  · rcases t with _ | ⟨b, u⟩
    · simp at h
    · rw [List.tail_cons, List.getLast?_cons_cons]

theorem getLast?_concat {α : Type} (l : List α) (a : α) :
    (l ++ [a]).getLast? = some a := by
  rw [List.getLast?_append]
  rfl

/-- C1: for every store state and every mutation, the gesture pattern
`commit_state(); mutate` followed by `undo()` restores exactly the
pre-mutation store, and a subsequent `redo()` restores the mutated
store.  Structural equality is definitional equality of the stroke
lists (paths, colors and widths are values). -/
theorem C1_undo_redo_inverse (st : OvState) (S2 : List Stroke) :
    (undo { commit_state st with stored_paths := S2 }).stored_paths =
      st.stored_paths ∧
    (redo (undo { commit_state st with stored_paths := S2 })).stored_paths =
      S2 := by
  have hlast : (commit_state st).undo_stack.getLast? =
      some st.stored_paths := by
    unfold commit_state
    simp only
    split
    · rename_i hlen
      rw [tail_getLast? _ (by
          rw [List.length_append] at hlen ⊢
          simp at hlen ⊢
          omega),
        getLast?_concat]
    · rw [getLast?_concat]
  have hundo : undo { commit_state st with stored_paths := S2 } =
      { commit_state st with
        stored_paths := st.stored_paths
        undo_stack := (commit_state st).undo_stack.dropLast
        redo_stack := [S2]
        selected_indices := ∅ } := by
    unfold undo
    simp only [hlast]
    have hredo : (commit_state st).redo_stack = [] := rfl
    rw [hredo]
    rfl
  constructor
  · rw [hundo]
  · rw [hundo]
    unfold redo
    simp only [getLast?_concat]
    rfl

theorem hist_sum_invariant (st : OvState) (op : HistOp)
    (h : st.undo_stack.length + st.redo_stack.length ≤ 50) :
    (applyOp st op).undo_stack.length +
      (applyOp st op).redo_stack.length ≤ 50 := by
  cases op with
  | commit =>
    show (commit_state st).undo_stack.length +
      (commit_state st).redo_stack.length ≤ 50
    unfold commit_state
    simp only
    split
    · rename_i hlen
      rw [List.length_tail, List.length_append, List.length_singleton,
        List.length_nil]
      rw [List.length_append, List.length_singleton] at hlen
      omega
    · rename_i hlen
      rw [List.length_nil]
      omega
  | undoOp =>
    show (undo st).undo_stack.length + (undo st).redo_stack.length ≤ 50
    unfold undo
    rcases hl : st.undo_stack.getLast? with _ | prev
    · simpa using h
    · have hne : st.undo_stack ≠ [] := by
        intro hnil
        rw [hnil] at hl
        exact Option.noConfusion hl
      simp only
      rw [List.length_dropLast, List.length_append, List.length_singleton]
      have := List.length_pos.mpr hne
      omega
  | redoOp =>
    show (redo st).undo_stack.length + (redo st).redo_stack.length ≤ 50
    unfold redo
    rcases hl : st.redo_stack.getLast? with _ | nxt
    · simpa using h
    · have hne : st.redo_stack ≠ [] := by
        intro hnil
        rw [hnil] at hl
        exact Option.noConfusion hl
      simp only
      rw [List.length_dropLast, List.length_append, List.length_singleton]
      have := List.length_pos.mpr hne
      omega
  | mutate s => simpa using h

theorem hist_sum_run (ops : List HistOp) :
    ∀ st : OvState, st.undo_stack.length + st.redo_stack.length ≤ 50 →
      (ops.foldl applyOp st).undo_stack.length +
        (ops.foldl applyOp st).redo_stack.length ≤ 50 := by
  induction ops with
  | nil => intro st h; simpa using h
  | cons op rest ih =>
    intro st h
    rw [List.foldl_cons]
    exact ih _ (hist_sum_invariant st op h)

set_option maxRecDepth 10000 in
/-- C9: the undo history never holds more than 50 entries.  (a) After
any sequence of history-affecting operations from the initial state the
undo stack has at most 50 entries.  (b) Each `commit_state` clears the
redo stack, appends the current store as the newest snapshot, keeps the
whole appended history when it fits in 50 entries and drops exactly the
oldest entry otherwise.  (c) In particular 60 commits leave exactly 50
entries. -/
theorem C9_history_cap :
    (∀ ops : List HistOp, (runOps ops).undo_stack.length ≤ 50) ∧
    (∀ st : OvState,
      (commit_state st).redo_stack = [] ∧
      (commit_state st).undo_stack.getLast? = some st.stored_paths ∧
      (st.undo_stack.length + 1 ≤ 50 →
        (commit_state st).undo_stack =
          st.undo_stack ++ [st.stored_paths]) ∧
      (50 < st.undo_stack.length + 1 →
        (commit_state st).undo_stack =
          (st.undo_stack ++ [st.stored_paths]).tail)) ∧
    (runOps (List.replicate 60 HistOp.commit)).undo_stack.length = 50 := by
  refine ⟨?_, ?_, ?_⟩
  · intro ops
    have := hist_sum_run ops initOverlayState (by simp [initOverlayState])
    unfold runOps
    omega
  · intro st
    refine ⟨rfl, ?_, ?_, ?_⟩
    · unfold commit_state
      simp only
      split
      · rename_i hlen
        rw [tail_getLast? _ (by
            rw [List.length_append] at hlen ⊢
            simp at hlen ⊢
            omega),
          getLast?_concat]
      · rw [getLast?_concat]
    · intro hfit
      unfold commit_state
      simp only
      rw [if_neg (by rw [List.length_append, List.length_singleton]; omega)]
    · intro hover
      unfold commit_state
      simp only
      rw [if_pos (by rw [List.length_append, List.length_singleton]; omega)]
  · rfl

/-! ## Persistence codec

`save_settings` encodes the store as JSON
`{"paths": [{"path": [(t,x,y),...], "color": "#aarrggbb", "width": w}, ...],
  "last_color": ..., "last_size": ..., "is_active": ...}`; `load_settings`
decodes it.  The JSON text layer is not modelled: `json.dumps`/`json.loads`
round-trip the structured values exactly (numbers survive via `repr`), so
the payload is modelled as a structured JSON value.  Python dynamic typing
and exceptions are modelled explicitly: the whole decoding body of
`load_settings` runs inside a single `try`, so an exception raised while
processing one entry keeps the entries already appended and abandons the
rest. -/

inductive JVal where
  | jnull
  | jbool (b : Bool)
  | jnum (q : ℚ)
  | jstr (s : String)
  | jarr (l : List JVal)
  | jobj (l : List (String × JVal))

/-- `dict.get(k, d)`. -/
def jget (fields : List (String × JVal)) (k : String) (d : JVal) : JVal :=
  match fields.find? (fun kv => kv.1 == k) with
  | some kv => kv.2
  | none => d

/-- Python truthiness of a JSON value. -/
def pyFalsy : JVal → Bool
  | .jnull => true
  | .jbool b => !b
  | .jnum q => q == 0
  | .jstr s => s.isEmpty
  | .jarr l => l.isEmpty
  | .jobj l => l.isEmpty

/-- Python `t == n` for a JSON value against a small integer
(`True == 1` and `False == 0` hold in Python). -/
def pyEqNat (t : JVal) (n : ℕ) : Bool :=
  match t with
  | .jnum q => q == (n : ℚ)
  | .jbool b => (if b then 1 else 0) == n
  | _ => false

/-- Numeric coercion accepted by `QPointF` coordinates and `float()`:
numbers and bools.  (`float` additionally parses numeric strings; that
case is never produced by the codec and is not exercised here.) -/
def asNum : JVal → Option ℚ
  | .jnum q => some q
  | .jbool b => some (if b then 1 else 0)
  | _ => none

/-- `QPainterPath` element type codes (`e.type`): 0 = move-to,
1 = line-to. -/
def elemType : PathElem → ℚ
  | .move _ => 0
  | .line _ => 1

/-- `serialize_path`: the list of `(e.type, e.x, e.y)` triples (tuples
become JSON arrays under `json.dumps`). -/
def serialize_path (path : List PathElem) : List JVal :=
  path.map (fun e => .jarr [.jnum (elemType e), .jnum e.pt.x, .jnum e.pt.y])

/-- Python unpacking `t, x, y = e` of a JSON value: it succeeds for a
3-element array, for a 3-character string (iteration yields its three
1-character strings), and for a 3-key object (iterating a dict yields
its keys); every other value raises `TypeError` (not iterable) or
`ValueError` (wrong length), which the per-element `try` of
`deserialize_path` catches. -/
def unpack3 : JVal → Option (JVal × JVal × JVal)
  | .jarr [t, x, y] => some (t, x, y)
  | .jstr s =>
    match s.toList with
    | [c1, c2, c3] => some (.jstr (String.mk [c1]), .jstr (String.mk [c2]),
        .jstr (String.mk [c3]))
    | _ => none
  | .jobj [(k1, _), (k2, _), (k3, _)] => some (.jstr k1, .jstr k2, .jstr k3)
  | _ => none

/-- One iteration of the element loop of `deserialize_path`.  Only the
unpacking `t, x, y = elements[i]` is protected by the per-element `try`,
so an element on which 3-unpacking fails is skipped, while an element
that unpacks to non-numeric coordinates - including a 3-character
string or a 3-key object, which unpack to strings - raises `TypeError`
inside `path.moveTo`/`path.lineTo` and aborts the whole load (the
error state short-circuits the remaining iterations).  Element codes
other than 0 fall through to `lineTo` (1 and the default branch call
it alike). -/
def deElemStep (acc : Except Unit (List PathElem)) (el : JVal) :
    Except Unit (List PathElem) :=
  match acc with
  | .error e => .error e
  | .ok path =>
    match unpack3 el with
    | none => .ok path
    | some (t, x, y) =>
      match asNum x, asNum y with
      | some xv, some yv =>
        if pyEqNat t 0 then .ok (pMoveTo path ⟨xv, yv⟩)
        else .ok (pLineTo path ⟨xv, yv⟩)
      | _, _ => .error ()

/-- The element loop of `deserialize_path`. -/
def deserialize_elems (l : List JVal) (path : List PathElem) :
    Except Unit (List PathElem) :=
  l.foldl deElemStep (.ok path)

/-- `AnnotationDocker.deserialize_path` on an arbitrary JSON value.  A
falsy value returns the fresh empty path.  Indexing a string yields
1-character strings that all fail to unpack, so a string returns the
empty path.  Indexing a JSON-decoded object with the integer loop
counter raises `KeyError` (its keys are strings), which the
per-element `try` catches, so an object also returns the empty path.
A truthy number or boolean raises `TypeError` at `len()`, which only
the outer `try` of `load_settings` catches. -/
def deserialize_path (v : JVal) : Except Unit (List PathElem) :=
  match v with
  | .jarr l => deserialize_elems l []
  | .jstr _ => .ok []
  | .jobj _ => .ok []
  | v => if pyFalsy v then .ok [] else .error ()

def invalidQCol : QCol := ⟨false, 0, 0, 0, 0⟩

def hexChars : List Char :=
  (List.range 16).map (fun i =>
    if i < 10 then Char.ofNat (48 + i) else Char.ofNat (87 + i))

def hexDigitChar (d : Fin 16) : Char := hexChars.getD d.val 'x'

def ofHexChar (c : Char) : Option (Fin 16) :=
  match hexChars.indexOf? c.toLower with
  | some i => if h : i < 16 then some ⟨i, h⟩ else none
  | none => none

def byteHex (v : Fin 256) : List Char :=
  [hexDigitChar ⟨v.val / 16, by omega⟩, hexDigitChar ⟨v.val % 16, by omega⟩]

def byteOfHex (c1 c2 : Char) : Option (Fin 256) :=
  match ofHexChar c1, ofHexChar c2 with
  | some h, some l => some ⟨h.val * 16 + l.val, by omega⟩
  | _, _ => none

/-- `QColor.name(QColor.HexArgb)`: `"#aarrggbb"` in lowercase hex. -/
def hexArgb (c : QCol) : String :=
  String.mk ('#' :: (byteHex c.a ++ byteHex c.r ++ byteHex c.g ++ byteHex c.b))

/-- `QColor(name)` for hex names: `"#AARRGGBB"` and `"#RRGGBB"` parse,
anything else yields an invalid color.  (Named colors such as `"red"`
are accepted by Qt but never produced by this codec.) -/
def parseQColor (s : String) : QCol :=
  match s.toList with
  | '#' :: c1 :: c2 :: c3 :: c4 :: c5 :: c6 :: c7 :: c8 :: [] =>
    match byteOfHex c1 c2, byteOfHex c3 c4, byteOfHex c5 c6, byteOfHex c7 c8 with
    | some av, some rv, some gv, some bv => ⟨true, av, rv, gv, bv⟩
    | _, _, _, _ => invalidQCol
  | '#' :: c1 :: c2 :: c3 :: c4 :: c5 :: c6 :: [] =>
    match byteOfHex c1 c2, byteOfHex c3 c4, byteOfHex c5 c6 with
    | some rv, some gv, some bv => ⟨true, 255, rv, gv, bv⟩
    | _, _, _ => invalidQCol
  | _ => invalidQCol

/-- The ARGB rows of Qt's `Qt.GlobalColor` table (qcolor.cpp), indices
0-19: color0, color1, black, white, darkGray, gray, lightGray, red,
green, blue, cyan, magenta, yellow, darkRed, darkGreen, darkBlue,
darkCyan, darkMagenta, darkYellow, transparent. -/
def globalColorRgb : List (Fin 256 × Fin 256 × Fin 256 × Fin 256) :=
  [(255, 255, 255, 255), (255, 0, 0, 0), (255, 0, 0, 0),
   (255, 255, 255, 255), (255, 128, 128, 128), (255, 160, 160, 164),
   (255, 192, 192, 192), (255, 255, 0, 0), (255, 0, 255, 0),
   (255, 0, 0, 255), (255, 0, 255, 255), (255, 255, 0, 255),
   (255, 255, 255, 0), (255, 128, 0, 0), (255, 0, 128, 0),
   (255, 0, 0, 128), (255, 0, 128, 128), (255, 128, 0, 128),
   (255, 128, 128, 0), (0, 0, 0, 0)]

/-- `QColor(Qt.GlobalColor)`: PyQt5 converts a Python `int` (and hence
a `bool`) to the enum and Qt looks the value up in the table above.
Outside the declared enum range 0-19 the C++ lookup is out of bounds
and has no defined result; the placeholder `invalidQCol` stands in for
it and is never relied upon (the classifier `colorFieldOkB` below
keeps numeric color fields out of every theorem). -/
def qGlobalColor (n : ℤ) : QCol :=
  match (if 0 ≤ n then globalColorRgb[n.toNat]? else none) with
  | some (av, rv, gv, bv) => ⟨true, av, rv, gv, bv⟩
  | none => invalidQCol

def isAsciiDigit (c : Char) : Bool := decide ('0' ≤ c) && decide (c ≤ '9')

def digitsNat (l : List Char) : ℕ :=
  l.foldl (fun a c => a * 10 + (c.toNat - 48)) 0

def parseExp (l : List Char) : Option ℤ :=
  match l with
  | '+' :: r => if r ≠ [] ∧ r.all isAsciiDigit then some (digitsNat r : ℤ)
      else none
  | '-' :: r => if r ≠ [] ∧ r.all isAsciiDigit then some (-(digitsNat r : ℤ))
      else none
  | r => if r ≠ [] ∧ r.all isAsciiDigit then some (digitsNat r : ℤ) else none

def parseMantissa (l : List Char) : Option (ℚ × List Char) :=
  let d1 := l.takeWhile isAsciiDigit
  let r1 := l.dropWhile isAsciiDigit
  if d1.isEmpty then none
  else
    match r1 with
    | '.' :: r2 =>
      let d2 := r2.takeWhile isAsciiDigit
      let r3 := r2.dropWhile isAsciiDigit
      some ((digitsNat d1 : ℚ) + (digitsNat d2 : ℚ) / 10 ^ d2.length, r3)
    | r2 => some ((digitsNat d1 : ℚ), r2)

def pyFloatCore (l : List Char) : Option ℚ :=
  match parseMantissa l with
  | none => none
  | some (m, rest) =>
    match rest with
    | [] => some m
    | 'e' :: r => (parseExp r).map (fun ex => m * 10 ^ ex)
    | 'E' :: r => (parseExp r).map (fun ex => m * 10 ^ ex)
    | _ => none

/-- The finite values of Python `float(str)` on the plain
sign-digits-dot-exponent literal forms (a sound restriction of the
accepted grammar: every string parsed here is accepted by `float` with
the same finite value).  Forms outside it - surrounding whitespace,
digit-group underscores, a leading dot, non-ASCII decimal digits, and
the non-finite `inf`/`infinity`/`nan` - return `none` here whether or
not `float` accepts them, so the classifier `widthFieldOkB` below
treats only the parsed strings as well-formed widths and the
theorems never touch the unparsed ones. -/
def pyFloat? (s : String) : Option ℚ :=
  match s.toList with
  | '+' :: r => pyFloatCore r
  | '-' :: r => (pyFloatCore r).map (fun q => -q)
  | r => pyFloatCore r

/-- `QColor(x)` in the entry loop: a string always constructs (an
unknown name gives an invalid color), a bool is an `int` and an `int`
is enum-converted into the global color table, a Python float raises
`TypeError`, as do `None`, lists and dicts.  A JSON number with a
fractional part is always a Python float; an integral JSON number
decodes to `int` or `float` depending on its source text (`2` versus
`2.0`), which the structured model does not retain - it is read as
`int` here, and the classifier `colorFieldOkB` keeps numeric color
fields out of the theorems. -/
def decodeColor (v : JVal) : Except Unit QCol :=
  match v with
  | .jstr s => .ok (parseQColor s)
  | .jbool b => .ok (qGlobalColor (if b then 1 else 0))
  | .jnum q => if q.den = 1 then .ok (qGlobalColor q.num) else .error ()
  | _ => .error ()

/-- `float(x)` in the entry loop: numbers and bools pass through,
numeric strings parse (modelled by `pyFloat?` on its sound
sublanguage), and `None`, lists and dicts raise `TypeError`. -/
def decodeWidth (v : JVal) : Except Unit ℚ :=
  match v with
  | .jnum q => .ok q
  | .jbool b => .ok (if b then 1 else 0)
  | .jstr s =>
    (match pyFloat? s with
    | some w => .ok w
    | none => .error ())
  | _ => .error ()

/-- One iteration of the entry loop in `load_settings`: `item.get` on a
non-dict raises `AttributeError`; otherwise the path, color and width
fields are decoded in the source's order and any raise aborts the
entry (and, through the single outer `try`, the rest of the load). -/
def decodeEntry (item : JVal) : Except Unit Stroke :=
  match item with
  | .jobj fields => do
    let path ← deserialize_path (jget fields "path" (.jarr []))
    let color ← decodeColor (jget fields "color" (.jstr "#000000FF"))
    let width ← decodeWidth (jget fields "width" (.jnum 1))
    .ok ⟨path, color, width⟩
  | _ => .error ()

/-- Path-list elements the element loop handles without raising:
3-unpacking fails (the element is skipped) or it yields numeric
coordinates (an element is appended). -/
def pathElemOkB (el : JVal) : Bool :=
  match unpack3 el with
  | none => true
  | some (_, x, y) => (asNum x).isSome && (asNum y).isSome

/-- "path" values on which `deserialize_path` returns without raising:
an array of handled elements, any string or object (everything is
skipped), or a falsy value. -/
def pathFieldOkB : JVal → Bool
  | .jarr l => l.all pathElemOkB
  | .jstr _ => true
  | .jobj _ => true
  | v => pyFalsy v

/-- "color" values on which `QColor(x)` succeeds with semantics the
structured model can state: any string, and booleans (enum indices 0
and 1).  Numeric fields are deliberately unclassified: whether a JSON
number is a Python `int` (table lookup) or `float` (`TypeError`)
depends on its source text. -/
def colorFieldOkB : JVal → Bool
  | .jstr _ => true
  | .jbool _ => true
  | _ => false

/-- "width" values `float(x)` accepts with a value the model
represents: numbers, booleans, and the strings `pyFloat?` parses. -/
def widthFieldOkB : JVal → Bool
  | .jnum _ => true
  | .jbool _ => true
  | .jstr s => (pyFloat? s).isSome
  | _ => false

/-- Stroke entries whose decode succeeds, field by field, with
uncontested library semantics. -/
def entryOkB (item : JVal) : Bool :=
  match item with
  | .jobj fields =>
    pathFieldOkB (jget fields "path" (.jarr [])) &&
    colorFieldOkB (jget fields "color" (.jstr "#000000FF")) &&
    widthFieldOkB (jget fields "width" (.jnum 1))
  | _ => false

/-- "path" values on which `deserialize_path` raises into the outer
`try`: a truthy number or boolean (`len()` raises `TypeError`), or an
array with an element that unpacks to a non-numeric coordinate
(`moveTo`/`lineTo` raises `TypeError`). -/
def pathFieldAbortsB : JVal → Bool
  | .jarr l => !(l.all pathElemOkB)
  | .jnum q => !(q == 0)
  | .jbool b => b
  | _ => false

/-- "color" values on which `QColor(x)` certainly raises `TypeError`:
`None`, lists, dicts, and JSON numbers with a fractional part (always
Python floats). -/
def colorFieldAbortsB : JVal → Bool
  | .jnull => true
  | .jarr _ => true
  | .jobj _ => true
  | .jnum q => !(q.den == 1)
  | _ => false

/-- "width" values on which `float(x)` certainly raises `TypeError`:
`None`, lists and dicts.  (Strings are left unclassified: deciding
which strings `float` rejects needs its full grammar.) -/
def widthFieldAbortsB : JVal → Bool
  | .jnull => true
  | .jarr _ => true
  | .jobj _ => true
  | _ => false

/-- Stroke entries whose decode certainly raises, in the source's
evaluation order (path first, then color, then width): a non-dict item
(`item.get` raises `AttributeError`), an aborting path, or - the
earlier fields fine - an aborting color or width. -/
def entryAbortsB (item : JVal) : Bool :=
  match item with
  | .jobj fields =>
    pathFieldAbortsB (jget fields "path" (.jarr [])) ||
    (pathFieldOkB (jget fields "path" (.jarr [])) &&
      (colorFieldAbortsB (jget fields "color" (.jstr "#000000FF")) ||
       (colorFieldOkB (jget fields "color" (.jstr "#000000FF")) &&
        widthFieldAbortsB (jget fields "width" (.jnum 1)))))
  | _ => true

/-- The entry loop of `load_settings` with the outer `try`: an exception
while processing one entry keeps what was already appended to
`stored_paths` and abandons the rest of the list. -/
def loadLoop : List JVal → List Stroke → List Stroke
  | [], acc => acc
  | item :: rest, acc =>
    match decodeEntry item with
    | .ok s => loadLoop rest (acc ++ [s])
    | .error _ => acc

/-- `AnnotationDocker.load_settings`, restricted to the stroke list it
produces.  `stored_paths` is reset to `[]` before the loop, so any
failure before or while iterating `data.get("paths", [])` leaves the
partial (possibly empty) list. -/
def load_paths (data : JVal) : List Stroke :=
  match data with
  | .jobj fields =>
    match jget fields "paths" (.jarr []) with
    | .jarr items => loadLoop items []
    | _ => []
  | _ => []

/-- The JSON encoding of one stroke written by `save_settings`. -/
def strokeToJson (s : Stroke) : JVal :=
  .jobj [("path", .jarr (serialize_path s.path)),
         ("color", .jstr (hexArgb s.color)),
         ("width", .jnum s.width)]

/-- The payload written by `AnnotationDocker.save_settings`. -/
def save_payload (paths : List Stroke) (cur : QCol) (lw : ℚ)
    (active : Bool) : JVal :=
  .jobj [("paths", .jarr (paths.map strokeToJson)),
         ("last_color", .jstr (hexArgb cur)),
         ("last_size", .jnum lw),
         ("is_active", .jbool active)]

/-- Adjacency allowed by the `QPainterPath` builders: a move-to element
never directly follows another move-to (moveTo overwrites it), and a
line-to never repeats the previous current position (lineTo skips it). -/
def elemOkB (a b : PathElem) : Bool :=
  match b with
  | .move _ => (match a with | .line _ => true | .move _ => false)
  | .line q => a.pt != q

def headMove : List PathElem → Bool
  | [] => true
  | .move _ :: _ => true
  | .line _ :: _ => false

/-- Invariant of every element list representable by a `QPainterPath`
built through `moveTo`/`lineTo` (the only constructors this program
uses): it starts with a move-to and respects `elemOkB` between
neighbours. -/
def WFPath (p : List PathElem) : Prop :=
  headMove p = true ∧ List.Chain' (fun a b => elemOkB a b = true) p

theorem ofHexChar_hexDigitChar : ∀ d : Fin 16,
    ofHexChar (hexDigitChar d) = some d := by decide

theorem byteOfHex_byteHex (v : Fin 256) :
    byteOfHex (hexDigitChar ⟨v.val / 16, by omega⟩)
      (hexDigitChar ⟨v.val % 16, by omega⟩) = some v := by
  unfold byteOfHex
  rw [ofHexChar_hexDigitChar, ofHexChar_hexDigitChar]
  simp only
  congr 1
  apply Fin.ext
  simp only
  omega

/-- The ARGB hex name round-trips through `QColor(name)` for valid
colors. -/
theorem parseQColor_hexArgb (c : QCol) :
    parseQColor (hexArgb c) = { c with valid := true } := by
  unfold hexArgb byteHex parseQColor
  simp only [String.toList, List.cons_append, List.nil_append,
    List.append_assoc]
  rw [byteOfHex_byteHex c.a, byteOfHex_byteHex c.r, byteOfHex_byteHex c.g,
    byteOfHex_byteHex c.b]

theorem WFPath_prefix (q : List PathElem) (e : PathElem)
    (h : WFPath (q ++ [e])) : WFPath q := by
  obtain ⟨hm, hc⟩ := h
  constructor
  · rcases q with _ | ⟨a, t⟩
    · rfl
    · rw [List.cons_append] at hm
      cases a
      · rfl
      · exact hm
  · exact (List.chain'_append.mp hc).1

theorem WFPath_last_ok (q : List PathElem) (e : PathElem) (x : PathElem)
    (h : WFPath (q ++ [e])) (hx : q.getLast? = some x) :
    elemOkB x e = true := by
  obtain ⟨_, hc⟩ := h
  have h3 := (List.chain'_append.mp hc).2.2
  exact h3 x hx e rfl

/-- Replaying the serialization of a constructible path through the
element decoder rebuilds exactly the same element list. -/
theorem deserialize_serialize (p : List PathElem) (hwf : WFPath p) :
    deserialize_elems (serialize_path p) [] = .ok p := by
  induction p using List.reverseRecOn with
  | nil => rfl
  | append_singleton q e ih =>
    have hwq : WFPath q := WFPath_prefix q e hwf
    unfold deserialize_elems at ih ⊢
    unfold serialize_path at ih ⊢
    rw [List.map_append, List.foldl_append, ih hwq]
    rcases e with p' | p'
    · -- move-to element
      show (if pyEqNat (JVal.jnum 0) 0 then Except.ok (pMoveTo q p')
        else Except.ok (pLineTo q p')) = Except.ok (q ++ [PathElem.move p'])
      rw [if_pos (by norm_num [pyEqNat])]
      have hmv : pMoveTo q p' = q ++ [PathElem.move p'] := by
        unfold pMoveTo
        rcases hq : q.getLast? with _ | x
        · rw [List.getLast?_eq_none_iff.mp hq]
          rfl
        · have hok := WFPath_last_ok q (PathElem.move p') x hwf hq
          rcases x with m | m
          · unfold elemOkB at hok
            simp at hok
          · rfl
      rw [hmv]
    · -- line-to element
      show (if pyEqNat (JVal.jnum 1) 0 then Except.ok (pMoveTo q p')
        else Except.ok (pLineTo q p')) = Except.ok (q ++ [PathElem.line p'])
      rw [if_neg (by norm_num [pyEqNat])]
      have hqne : q ≠ [] := by
        intro h
        rw [h] at hwf
        obtain ⟨hm, _⟩ := hwf
        exact Bool.noConfusion hm
      have hln : pLineTo q p' = q ++ [PathElem.line p'] := by
        unfold pLineTo
        rcases hq : q.getLast? with _ | x
        · exact absurd (List.getLast?_eq_none_iff.mp hq) hqne
        · have hok := WFPath_last_ok q (PathElem.line p') x hwf hq
          unfold elemOkB at hok
          simp only [bne_iff_ne, ne_eq] at hok
          show (if x.pt = p' then q else q ++ [PathElem.line p']) =
            q ++ [PathElem.line p']
          rw [if_neg hok]
      rw [hln]

/-- Decoding the saved encoding of a stroke with a constructible path
and a valid color restores exactly that stroke. -/
theorem decodeEntry_strokeToJson (s : Stroke) (hwf : WFPath s.path)
    (hval : s.color.valid = true) :
    decodeEntry (strokeToJson s) = Except.ok s := by
  show (do
    let path ← deserialize_path (JVal.jarr (serialize_path s.path))
    let color ← Except.ok (parseQColor (hexArgb s.color))
    let width ← Except.ok s.width
    Except.ok (⟨path, color, width⟩ : Stroke) : Except Unit Stroke) =
    Except.ok s
  rw [show deserialize_path (JVal.jarr (serialize_path s.path)) =
    deserialize_elems (serialize_path s.path) [] from rfl]
  rw [deserialize_serialize s.path hwf]
  show Except.ok (⟨s.path, parseQColor (hexArgb s.color), s.width⟩ : Stroke) =
    Except.ok s
  rw [parseQColor_hexArgb s.color]
  have : ({ s.color with valid := true } : QCol) = s.color := by
    rcases hcc : s.color with ⟨v, av, rv, gv, bv⟩
    have hv : v = true := by rw [← hval, hcc]
    rw [hv]
  rw [this]

theorem loadLoop_ok_cons (item : JVal) (rest : List JVal)
    (acc : List Stroke) (s : Stroke) (h : decodeEntry item = Except.ok s) :
    loadLoop (item :: rest) acc = loadLoop rest (acc ++ [s]) := by
  show (match decodeEntry item with
    | Except.ok s => loadLoop rest (acc ++ [s])
    | Except.error _ => acc) = loadLoop rest (acc ++ [s])
  rw [h]

theorem loadLoop_error_cons (item : JVal) (rest : List JVal)
    (acc : List Stroke) (h : (decodeEntry item).toOption = none) :
    loadLoop (item :: rest) acc = acc := by
  show (match decodeEntry item with
    | Except.ok s => loadLoop rest (acc ++ [s])
    | Except.error _ => acc) = acc
  rcases hd : decodeEntry item with e | s
  · rfl
  · rw [hd] at h
    exact Option.noConfusion h

/-- Good entries are decoded and appended in order. -/
theorem loadLoop_all_ok : ∀ (items : List JVal) (acc : List Stroke),
    (∀ i ∈ items, (decodeEntry i).toOption.isSome = true) →
    loadLoop items acc =
      acc ++ items.filterMap (fun i => (decodeEntry i).toOption) := by
  intro items
  induction items with
  | nil => intro acc _; simp [loadLoop]
  | cons item rest ih =>
    intro acc hok
    have hitem := hok item (List.mem_cons_self item rest)
    rcases hd : decodeEntry item with e | s
    · rw [hd] at hitem
      simp [Except.toOption] at hitem
    · rw [loadLoop_ok_cons item rest acc s hd,
        ih _ (fun i hi => hok i (List.mem_cons_of_mem item hi)),
        List.filterMap_cons, hd]
      show acc ++ [s] ++ List.filterMap (fun i => (decodeEntry i).toOption)
          rest = acc ++ (s :: List.filterMap (fun i => (decodeEntry i).toOption)
          rest)
      rw [List.append_assoc]
      rfl

/-- C3: serializing a non-empty stroke store with the persistence codec
(`save_settings`) and decoding the payload (`load_settings`) restores
every stroke exactly: the same path element list (hence the same element
count, command kinds and coordinates), an equal color and an equal
width.  The hypotheses state that each path is representable by a
`QPainterPath` built from move-to/line-to calls (the invariant `WFPath`,
preserved by the builders, see `WFPath_pMoveTo`/`WFPath_pLineTo`) and
that each stored color is a valid `QColor`. -/
theorem C3_codec_roundtrip (store : List Stroke) (cur : QCol) (lw : ℚ)
    (act : Bool) (hne : store ≠ [])
    (hwf : ∀ s ∈ store, WFPath s.path ∧ s.color.valid = true) :
    load_paths (save_payload store cur lw act) = store := by
  have hfields : jget [("paths", JVal.jarr (store.map strokeToJson)),
      ("last_color", JVal.jstr (hexArgb cur)),
      ("last_size", JVal.jnum lw),
      ("is_active", JVal.jbool act)] "paths" (.jarr []) =
      JVal.jarr (store.map strokeToJson) := rfl
  show (match jget [("paths", JVal.jarr (store.map strokeToJson)),
      ("last_color", JVal.jstr (hexArgb cur)),
      ("last_size", JVal.jnum lw),
      ("is_active", JVal.jbool act)] "paths" (.jarr []) with
    | JVal.jarr items => loadLoop items []
    | _ => []) = store
  rw [hfields]
  show loadLoop (store.map strokeToJson) [] = store
  have hok : ∀ i ∈ store.map strokeToJson,
      (decodeEntry i).toOption.isSome = true := by
    intro i hi
    obtain ⟨s, hs, rfl⟩ := List.mem_map.mp hi
    rw [decodeEntry_strokeToJson s (hwf s hs).1 (hwf s hs).2]
    rfl
  rw [loadLoop_all_ok (store.map strokeToJson) [] hok, List.nil_append]
  rw [List.filterMap_map]
  have : ∀ s ∈ store, ((fun i => (decodeEntry i).toOption) ∘ strokeToJson) s
      = some s := by
    intro s hs
    show (decodeEntry (strokeToJson s)).toOption = some s
    rw [decodeEntry_strokeToJson s (hwf s hs).1 (hwf s hs).2]
    rfl
  rw [List.filterMap_congr this, List.filterMap_some]

theorem loadLoop_ok_front : ∀ (pre rest : List JVal) (acc : List Stroke),
    (∀ i ∈ pre, (decodeEntry i).toOption.isSome = true) →
    loadLoop (pre ++ rest) acc =
      loadLoop rest (acc ++ pre.filterMap (fun i => (decodeEntry i).toOption)) := by
  intro pre
  induction pre with
  | nil => intro rest acc _; simp
  | cons item tl ih =>
    intro rest acc hok
    have hitem := hok item (List.mem_cons_self item tl)
    rcases hd : decodeEntry item with e | s
    · rw [hd] at hitem
      simp [Except.toOption] at hitem
    · rw [List.cons_append, loadLoop_ok_cons item (tl ++ rest) acc s hd,
        ih rest _ (fun i hi => hok i (List.mem_cons_of_mem item hi)),
        List.filterMap_cons, hd]
      show loadLoop rest (acc ++ [s] ++
          List.filterMap (fun i => (decodeEntry i).toOption) tl) =
        loadLoop rest (acc ++ (s ::
          List.filterMap (fun i => (decodeEntry i).toOption) tl))
      rw [List.append_assoc]
      rfl

theorem deElemStep_error (e : Unit) (el : JVal) :
    deElemStep (Except.error e) el = Except.error e := rfl

theorem foldl_deElemStep_error (l : List JVal) (e : Unit) :
    List.foldl deElemStep (Except.error e) l = Except.error e := by
  induction l with
  | nil => rfl
  | cons a tl ih => rw [List.foldl_cons, deElemStep_error, ih]

theorem deElemStep_skip (path : List PathElem) (el : JVal)
    (h : unpack3 el = none) :
    deElemStep (Except.ok path) el = Except.ok path := by
  show (match unpack3 el with
    | none => Except.ok path
    | some (t, x, y) =>
      match asNum x, asNum y with
      | some xv, some yv =>
        if pyEqNat t 0 then Except.ok (pMoveTo path ⟨xv, yv⟩)
        else Except.ok (pLineTo path ⟨xv, yv⟩)
      | _, _ => Except.error ()) = Except.ok path
  simp only [h]

theorem deElemStep_unpacked (path : List PathElem) (el t x y : JVal)
    (xv yv : ℚ) (hu : unpack3 el = some (t, x, y))
    (hx : asNum x = some xv) (hy : asNum y = some yv) :
    deElemStep (Except.ok path) el =
      if pyEqNat t 0 then Except.ok (pMoveTo path ⟨xv, yv⟩)
      else Except.ok (pLineTo path ⟨xv, yv⟩) := by
  show (match unpack3 el with
    | none => Except.ok path
    | some (t, x, y) =>
      match asNum x, asNum y with
      | some xv, some yv =>
        if pyEqNat t 0 then Except.ok (pMoveTo path ⟨xv, yv⟩)
        else Except.ok (pLineTo path ⟨xv, yv⟩)
      | _, _ => Except.error ()) = _
  simp only [hu, hx, hy]

theorem deElemStep_abort (path : List PathElem) (el t x y : JVal)
    (hu : unpack3 el = some (t, x, y))
    (hxy : asNum x = none ∨ asNum y = none) :
    deElemStep (Except.ok path) el = Except.error () := by
  have hshow : deElemStep (Except.ok path) el =
      (match asNum x, asNum y with
       | some xv, some yv =>
         if pyEqNat t 0 then Except.ok (pMoveTo path ⟨xv, yv⟩)
         else Except.ok (pLineTo path ⟨xv, yv⟩)
       | _, _ => Except.error ()) := by
    show (match unpack3 el with
      | none => Except.ok path
      | some (t, x, y) =>
        match asNum x, asNum y with
        | some xv, some yv =>
          if pyEqNat t 0 then Except.ok (pMoveTo path ⟨xv, yv⟩)
          else Except.ok (pLineTo path ⟨xv, yv⟩)
        | _, _ => Except.error ()) = _
    simp only [hu]
  rw [hshow]
  rcases hax : asNum x with _ | xv
  · rfl
  · rcases hxy with h | h
    · rw [hax] at h
      exact Option.noConfusion h
    · rw [h]

theorem pathElemOkB_skip (el : JVal) (hu : unpack3 el = none) :
    pathElemOkB el = true := by
  unfold pathElemOkB
  simp only [hu]

theorem pathElemOkB_unpacked (el t x y : JVal)
    (hu : unpack3 el = some (t, x, y)) :
    pathElemOkB el = ((asNum x).isSome && (asNum y).isSome) := by
  unfold pathElemOkB
  simp only [hu]

theorem deserialize_elems_ok : ∀ (l : List JVal),
    l.all pathElemOkB = true →
    ∀ path, ∃ p, List.foldl deElemStep (Except.ok path) l = Except.ok p := by
  intro l
  induction l with
  | nil => intro _ path; exact ⟨path, rfl⟩
  | cons a tl ih =>
    intro h path
    rw [List.all_cons, Bool.and_eq_true] at h
    obtain ⟨ha, htl⟩ := h
    rcases hu : unpack3 a with _ | ⟨t, x, y⟩
    · rw [List.foldl_cons, deElemStep_skip path a hu]
      exact ih htl path
    · rw [pathElemOkB_unpacked a t x y hu, Bool.and_eq_true,
        Option.isSome_iff_exists, Option.isSome_iff_exists] at ha
      obtain ⟨⟨xv, hax⟩, ⟨yv, hay⟩⟩ := ha
      rw [List.foldl_cons, deElemStep_unpacked path a t x y xv yv hu hax hay]
      by_cases hm : pyEqNat t 0 = true
      · rw [if_pos hm]
        exact ih htl _
      · rw [if_neg hm]
        exact ih htl _

theorem deserialize_elems_abort : ∀ (l : List JVal),
    l.all pathElemOkB = false →
    ∀ path, List.foldl deElemStep (Except.ok path) l = Except.error () := by
  intro l
  induction l with
  | nil => intro h _; exact absurd h (by simp)
  | cons a tl ih =>
    intro h path
    by_cases hea : pathElemOkB a = true
    · have htl : tl.all pathElemOkB = false := by
        rw [List.all_cons, hea, Bool.true_and] at h
        exact h
      rcases hu : unpack3 a with _ | ⟨t, x, y⟩
      · rw [List.foldl_cons, deElemStep_skip path a hu]
        exact ih htl path
      · rw [pathElemOkB_unpacked a t x y hu, Bool.and_eq_true,
          Option.isSome_iff_exists, Option.isSome_iff_exists] at hea
        obtain ⟨⟨xv, hax⟩, ⟨yv, hay⟩⟩ := hea
        rw [List.foldl_cons,
          deElemStep_unpacked path a t x y xv yv hu hax hay]
        by_cases hm : pyEqNat t 0 = true
        · rw [if_pos hm]
          exact ih htl _
        · rw [if_neg hm]
          exact ih htl _
    · have hea' : pathElemOkB a = false := by
        revert hea
        cases pathElemOkB a <;> simp
      rcases hu : unpack3 a with _ | ⟨t, x, y⟩
      · rw [pathElemOkB_skip a hu] at hea'
        exact Bool.noConfusion hea'
      · have hxy : asNum x = none ∨ asNum y = none := by
          rw [pathElemOkB_unpacked a t x y hu] at hea'
          rcases hax : asNum x with _ | xv
          · exact Or.inl rfl
          · rcases hay : asNum y with _ | yv
            · exact Or.inr rfl
            · rw [hax, hay] at hea'
              exact absurd hea' (by simp)
        rw [List.foldl_cons, deElemStep_abort path a t x y hu hxy,
          foldl_deElemStep_error]

theorem pathFieldOk_decodes (v : JVal) (h : pathFieldOkB v = true) :
    ∃ p, deserialize_path v = Except.ok p := by
  rcases v with _ | b | q | s | l | o
  · exact ⟨[], rfl⟩
  · refine ⟨[], ?_⟩
    have h' : pyFalsy (JVal.jbool b) = true := h
    show (if pyFalsy (JVal.jbool b) then Except.ok [] else Except.error ()) =
      Except.ok ([] : List PathElem)
    rw [if_pos h']
  · refine ⟨[], ?_⟩
    have h' : pyFalsy (JVal.jnum q) = true := h
    show (if pyFalsy (JVal.jnum q) then Except.ok [] else Except.error ()) =
      Except.ok ([] : List PathElem)
    rw [if_pos h']
  · exact ⟨[], rfl⟩
  · exact deserialize_elems_ok l h []
  · exact ⟨[], rfl⟩

theorem pathFieldAborts_error (v : JVal) (h : pathFieldAbortsB v = true) :
    deserialize_path v = Except.error () := by
  rcases v with _ | b | q | s | l | o
  · exact Bool.noConfusion h
  · cases b
    · exact Bool.noConfusion h
    · rfl
  · have h' : (q == 0) = false := by
      have hb : (!(q == 0)) = true := h
      revert hb
      cases q == 0 <;> simp
    show (if pyFalsy (JVal.jnum q) then Except.ok [] else Except.error ()) =
      Except.error ()
    rw [if_neg (by show ¬ ((q == 0) = true); rw [h']; exact Bool.false_ne_true)]
  · exact Bool.noConfusion h
  · have h' : l.all pathElemOkB = false := by
      have hb : (!(l.all pathElemOkB)) = true := h
      revert hb
      cases l.all pathElemOkB <;> simp
    exact deserialize_elems_abort l h' []
  · exact Bool.noConfusion h

theorem decodeColor_ok (v : JVal) (h : colorFieldOkB v = true) :
    ∃ c, decodeColor v = Except.ok c := by
  rcases v with _ | b | q | s | l | o
  · exact Bool.noConfusion h
  · exact ⟨_, rfl⟩
  · exact Bool.noConfusion h
  · exact ⟨_, rfl⟩
  · exact Bool.noConfusion h
  · exact Bool.noConfusion h

theorem decodeColor_aborts (v : JVal) (h : colorFieldAbortsB v = true) :
    decodeColor v = Except.error () := by
  rcases v with _ | b | q | s | l | o
  · rfl
  · exact Bool.noConfusion h
  · have h' : ¬ q.den = 1 := by
      intro he
      have hfalse : colorFieldAbortsB (JVal.jnum q) = false := by
        show (!(q.den == 1)) = false
        rw [he]
        rfl
      rw [hfalse] at h
      exact Bool.noConfusion h
    show (if q.den = 1 then Except.ok (qGlobalColor q.num)
      else Except.error ()) = Except.error ()
    rw [if_neg h']
  · exact Bool.noConfusion h
  · rfl
  · rfl

theorem decodeWidth_ok (v : JVal) (h : widthFieldOkB v = true) :
    ∃ w, decodeWidth v = Except.ok w := by
  rcases v with _ | b | q | s | l | o
  · exact Bool.noConfusion h
  · exact ⟨_, rfl⟩
  · exact ⟨_, rfl⟩
  · have h' : (pyFloat? s).isSome = true := h
    rcases hps : pyFloat? s with _ | w
    · rw [hps] at h'
      exact Bool.noConfusion h'
    · refine ⟨w, ?_⟩
      show (match pyFloat? s with
        | some w => Except.ok w
        | none => (Except.error () : Except Unit ℚ)) = Except.ok w
      simp only [hps]
  · exact Bool.noConfusion h
  · exact Bool.noConfusion h

theorem decodeWidth_aborts (v : JVal) (h : widthFieldAbortsB v = true) :
    decodeWidth v = Except.error () := by
  rcases v with _ | b | q | s | l | o
  · rfl
  · exact Bool.noConfusion h
  · exact Bool.noConfusion h
  · exact Bool.noConfusion h
  · rfl
  · rfl

theorem decodeEntry_jobj (fields : List (String × JVal))
    (p : List PathElem) (c : QCol) (w : ℚ)
    (hp : deserialize_path (jget fields "path" (.jarr [])) = Except.ok p)
    (hc : decodeColor (jget fields "color" (.jstr "#000000FF")) =
      Except.ok c)
    (hw : decodeWidth (jget fields "width" (.jnum 1)) = Except.ok w) :
    decodeEntry (.jobj fields) = Except.ok ⟨p, c, w⟩ := by
  show (do
    let path ← deserialize_path (jget fields "path" (.jarr []))
    let color ← decodeColor (jget fields "color" (.jstr "#000000FF"))
    let width ← decodeWidth (jget fields "width" (.jnum 1))
    Except.ok (⟨path, color, width⟩ : Stroke) : Except Unit Stroke) =
    Except.ok (⟨p, c, w⟩ : Stroke)
  rw [hp, hc, hw]
  rfl

theorem entryOk_decodes (item : JVal) (h : entryOkB item = true) :
    (decodeEntry item).toOption.isSome = true := by
  rcases item with _ | b | q | s | l | fields
  · exact Bool.noConfusion h
  · exact Bool.noConfusion h
  · exact Bool.noConfusion h
  · exact Bool.noConfusion h
  · exact Bool.noConfusion h
  · have h' : (pathFieldOkB (jget fields "path" (.jarr [])) &&
        colorFieldOkB (jget fields "color" (.jstr "#000000FF")) &&
        widthFieldOkB (jget fields "width" (.jnum 1))) = true := h
    rw [Bool.and_eq_true, Bool.and_eq_true] at h'
    obtain ⟨⟨hp, hc⟩, hw⟩ := h'
    obtain ⟨p, hpath⟩ := pathFieldOk_decodes _ hp
    obtain ⟨c, hcol⟩ := decodeColor_ok _ hc
    obtain ⟨w, hwid⟩ := decodeWidth_ok _ hw
    rw [decodeEntry_jobj fields p c w hpath hcol hwid]
    rfl

theorem entryAborts_error (item : JVal) (h : entryAbortsB item = true) :
    decodeEntry item = Except.error () := by
  rcases item with _ | b | q | s | l | fields
  · rfl
  · rfl
  · rfl
  · rfl
  · rfl
  · have h' : (pathFieldAbortsB (jget fields "path" (.jarr [])) ||
        (pathFieldOkB (jget fields "path" (.jarr [])) &&
          (colorFieldAbortsB (jget fields "color" (.jstr "#000000FF")) ||
           (colorFieldOkB (jget fields "color" (.jstr "#000000FF")) &&
            widthFieldAbortsB (jget fields "width" (.jnum 1)))))) = true := h
    rw [Bool.or_eq_true] at h'
    rcases h' with hpa | hrest
    · have hperr := pathFieldAborts_error _ hpa
      show (do
        let path ← deserialize_path (jget fields "path" (.jarr []))
        let color ← decodeColor (jget fields "color" (.jstr "#000000FF"))
        let width ← decodeWidth (jget fields "width" (.jnum 1))
        Except.ok (⟨path, color, width⟩ : Stroke) : Except Unit Stroke) =
        Except.error ()
      rw [hperr]
      rfl
    · rw [Bool.and_eq_true, Bool.or_eq_true] at hrest
      obtain ⟨hpOk, hco⟩ := hrest
      obtain ⟨p, hpath⟩ := pathFieldOk_decodes _ hpOk
      rcases hco with hca | hcw
      · have hcerr := decodeColor_aborts _ hca
        show (do
          let path ← deserialize_path (jget fields "path" (.jarr []))
          let color ← decodeColor (jget fields "color" (.jstr "#000000FF"))
          let width ← decodeWidth (jget fields "width" (.jnum 1))
          Except.ok (⟨path, color, width⟩ : Stroke) : Except Unit Stroke) =
          Except.error ()
        rw [hpath, hcerr]
        rfl
      · rw [Bool.and_eq_true] at hcw
        obtain ⟨hcOk, hwa⟩ := hcw
        obtain ⟨c, hcol⟩ := decodeColor_ok _ hcOk
        have hwerr := decodeWidth_aborts _ hwa
        show (do
          let path ← deserialize_path (jget fields "path" (.jarr []))
          let color ← decodeColor (jget fields "color" (.jstr "#000000FF"))
          let width ← decodeWidth (jget fields "width" (.jnum 1))
          Except.ok (⟨path, color, width⟩ : Stroke) : Except Unit Stroke) =
          Except.error ()
        rw [hpath, hcol, hwerr]
        rfl

/-- C8 amended: tolerance exists only at the level of path ELEMENTS and
only for the unpacking step: (1) an element on which 3-unpacking fails
is skipped; (2) an element that unpacks to a non-numeric coordinate -
a 3-character string, a 3-key object, or a 3-array with a non-numeric
entry - raises `TypeError` at `moveTo`/`lineTo` and errors the whole
path decode; (3) a malformed ENTRY (a non-dict item, or an aborting
path, color or width field) raises inside the single outer `try` of
`load_settings`, which keeps the entries already decoded and abandons
the remainder of the list, so well-formed entries after it do not
load; (4) when every entry is well-formed, all of them load, in
order.  The load itself never fails: the outer `try` swallows the
exception. -/
theorem C8_load_tolerance :
    (∀ (el : JVal) (rest : List JVal) (path : List PathElem),
      unpack3 el = none →
      deserialize_elems (el :: rest) path = deserialize_elems rest path) ∧
    (∀ (el : JVal) (rest : List JVal) (path : List PathElem) (t x y : JVal),
      unpack3 el = some (t, x, y) →
      asNum x = none ∨ asNum y = none →
      deserialize_elems (el :: rest) path = Except.error ()) ∧
    (∀ (pre post : List JVal) (bad : JVal),
      (∀ i ∈ pre, entryOkB i = true) →
      entryAbortsB bad = true →
      load_paths (JVal.jobj [("paths", JVal.jarr (pre ++ bad :: post))]) =
        pre.filterMap (fun i => (decodeEntry i).toOption)) ∧
    (∀ items : List JVal,
      (∀ i ∈ items, entryOkB i = true) →
      load_paths (JVal.jobj [("paths", JVal.jarr items)]) =
        items.filterMap (fun i => (decodeEntry i).toOption)) := by
  refine ⟨?_, ?_, ?_, ?_⟩
  · intro el rest path hu
    show List.foldl deElemStep (deElemStep (Except.ok path) el) rest =
      List.foldl deElemStep (Except.ok path) rest
    rw [deElemStep_skip path el hu]
  · intro el rest path t x y hu hxy
    show List.foldl deElemStep (deElemStep (Except.ok path) el) rest =
      Except.error ()
    rw [deElemStep_abort path el t x y hu hxy, foldl_deElemStep_error]
  · intro pre post bad hpre hbad
    show loadLoop (pre ++ bad :: post) [] =
      pre.filterMap (fun i => (decodeEntry i).toOption)
    rw [loadLoop_ok_front pre (bad :: post) []
        (fun i hi => entryOk_decodes i (hpre i hi)),
      loadLoop_error_cons bad post _
        (by rw [entryAborts_error bad hbad]; rfl),
      List.nil_append]
  · intro items hok
    show loadLoop items [] = items.filterMap (fun i => (decodeEntry i).toOption)
    rw [loadLoop_all_ok items []
      (fun i hi => entryOk_decodes i (hok i hi)), List.nil_append]

def goodEntryA : JVal := .jobj [("width", .jnum 3)]

def goodEntryB : JVal := .jobj [("width", .jnum 7)]

/-- A malformed entry: a number instead of a stroke object
(`item.get` raises `AttributeError`). -/
def badEntry : JVal := .jnum 5

/-- The stroke decoded from `goodEntryA`: missing fields fall back to an
empty path and the default color string `"#000000FF"`. -/
def strokeA : Stroke := ⟨[], ⟨true, 0, 0, 0, 255⟩, 3⟩

def strokeB : Stroke := ⟨[], ⟨true, 0, 0, 0, 255⟩, 7⟩

theorem decode_goodEntryA : decodeEntry goodEntryA = Except.ok strokeA := by
  show (do
    let path ← deserialize_path (JVal.jarr [])
    let color ← Except.ok (parseQColor "#000000FF")
    let width ← Except.ok (3 : ℚ)
    Except.ok (⟨path, color, width⟩ : Stroke) : Except Unit Stroke) =
    Except.ok strokeA
  rw [show parseQColor "#000000FF" = ⟨true, 0, 0, 0, 255⟩ from by decide]
  rfl

theorem decode_goodEntryB : decodeEntry goodEntryB = Except.ok strokeB := by
  show (do
    let path ← deserialize_path (JVal.jarr [])
    let color ← Except.ok (parseQColor "#000000FF")
    let width ← Except.ok (7 : ℚ)
    Except.ok (⟨path, color, width⟩ : Stroke) : Except Unit Stroke) =
    Except.ok strokeB
  rw [show parseQColor "#000000FF" = ⟨true, 0, 0, 0, 255⟩ from by decide]
  rfl

/-- C8 counterexample: in the payload
`{"paths": [goodEntryA, 5, goodEntryB]}` the middle entry is malformed
(a number has no `.get`); the claim says only the malformed entry is
skipped and `goodEntryB` still loads, but `load_settings` catches the
`AttributeError` in its single outer `try` and stops, loading only the
first entry - even though `goodEntryB` alone decodes fine. -/
theorem C8_counterexample :
    load_paths (JVal.jobj
      [("paths", JVal.jarr [goodEntryA, badEntry, goodEntryB])]) =
      [strokeA] ∧
    decodeEntry goodEntryB = Except.ok strokeB := by
  constructor
  · show loadLoop [goodEntryA, badEntry, goodEntryB] [] = [strokeA]
    rw [loadLoop_ok_cons goodEntryA [badEntry, goodEntryB] [] strokeA
      decode_goodEntryA, List.nil_append]
    rw [loadLoop_error_cons badEntry [goodEntryB] [strokeA] rfl]
  · exact decode_goodEntryB

/-- Witness for the amended C8: with the same payload, the prefix before
the malformed entry is exactly what loads. -/
theorem C8_load_tolerance_witness :
    load_paths (JVal.jobj
      [("paths", JVal.jarr ([goodEntryA] ++ badEntry :: [goodEntryB]))]) =
      [goodEntryA].filterMap (fun i => (decodeEntry i).toOption) := by
  refine C8_load_tolerance.2.2.1 [goodEntryA] [goodEntryB] badEntry ?_ rfl
  intro i hi
  rw [List.mem_singleton] at hi
  rw [hi]
  rfl

theorem headMove_append (p l : List PathElem) (h : p ≠ []) :
    headMove (p ++ l) = headMove p := by
  rcases p with _ | ⟨a, t⟩
  · exact absurd rfl h
  · cases a <;> rfl

theorem elemOkB_move (x : PathElem) (r r' : Pt) :
    elemOkB x (.move r) = elemOkB x (.move r') := by
  cases x <;> rfl

/-- `WFPath` is preserved by `QPainterPath.moveTo`: every path this
program ever builds satisfies the invariant. -/
theorem WFPath_pMoveTo (p : List PathElem) (q : Pt) (h : WFPath p) :
    WFPath (pMoveTo p q) := by
  obtain ⟨hm, hc⟩ := h
  unfold pMoveTo
  rcases hl : p.getLast? with _ | x
  · exact ⟨rfl, List.chain'_singleton _⟩
  · rcases x with mp | lp
    · obtain ⟨ys, hys⟩ := List.getLast?_eq_some_iff.mp hl
      subst hys
      rw [List.dropLast_concat]
      obtain ⟨hcy, _, hok⟩ := List.chain'_append.mp hc
      constructor
      · rcases ys with _ | ⟨a, t⟩
        · rfl
        · rw [List.cons_append] at hm ⊢
          cases a
          · rfl
          · exact hm
      · refine List.chain'_append.mpr ⟨hcy, List.chain'_singleton _, ?_⟩
        intro x hx y hy
        rw [Option.mem_def, List.head?_cons] at hy
        have hy' : PathElem.move q = y := Option.some.inj hy
        rw [← hy']
        rw [elemOkB_move x q mp]
        exact hok x hx (PathElem.move mp) rfl
    · have hpne : p ≠ [] := by
        intro hh
        rw [hh] at hl
        exact Option.noConfusion hl
      constructor
      · rw [headMove_append p _ hpne]
        exact hm
      · refine List.chain'_append.mpr ⟨hc, List.chain'_singleton _, ?_⟩
        intro x hx y hy
        rw [Option.mem_def, hl] at hx
        have hx' : x = PathElem.line lp := (Option.some.inj hx).symm
        rw [Option.mem_def, List.head?_cons] at hy
        have hy' : PathElem.move q = y := Option.some.inj hy
        rw [hx', ← hy']
        rfl

/-- `WFPath` is preserved by `QPainterPath.lineTo`. -/
theorem WFPath_pLineTo (p : List PathElem) (q : Pt) (h : WFPath p) :
    WFPath (pLineTo p q) := by
  obtain ⟨hm, hc⟩ := h
  unfold pLineTo
  rcases hl : p.getLast? with _ | x
  · by_cases hq : q = ptZero
    · rw [if_pos hq]
      exact ⟨rfl, List.chain'_singleton _⟩
    · rw [if_neg hq]
      refine ⟨rfl, ?_⟩
      rw [List.chain'_cons]
      refine ⟨?_, List.chain'_singleton _⟩
      show ((PathElem.move ptZero).pt != q) = true
      rw [bne_iff_ne]
      show ptZero ≠ q
      exact fun hh => hq hh.symm
  · show WFPath (if x.pt = q then p else p ++ [PathElem.line q])
    by_cases hpt : x.pt = q
    · rw [if_pos hpt]
      exact ⟨hm, hc⟩
    · rw [if_neg hpt]
      have hpne : p ≠ [] := by
        intro hh
        rw [hh] at hl
        exact Option.noConfusion hl
      constructor
      · rw [headMove_append p _ hpne]
        exact hm
      · refine List.chain'_append.mpr ⟨hc, List.chain'_singleton _, ?_⟩
        intro a ha y hy
        rw [Option.mem_def, hl] at ha
        have ha' : a = x := (Option.some.inj ha).symm
        rw [Option.mem_def, List.head?_cons] at hy
        have hy' : PathElem.line q = y := Option.some.inj hy
        rw [ha', ← hy']
        show (x.pt != q) = true
        rw [bne_iff_ne]
        exact hpt

def wfStrokeC3 : Stroke :=
  ⟨[.move ⟨1, 2⟩, .line ⟨3, 4⟩], ⟨true, 255, 16, 32, 48⟩, 5⟩

/-- Witness for C3: a store with one stroke containing both a move-to
and a line-to element round-trips through the codec. -/
theorem C3_codec_roundtrip_witness :
    load_paths (save_payload [wfStrokeC3] ⟨true, 255, 0, 0, 0⟩ 4 true) =
      [wfStrokeC3] := by
  refine C3_codec_roundtrip [wfStrokeC3] ⟨true, 255, 0, 0, 0⟩ 4 true
    (by simp) ?_
  intro s hs
  rw [List.mem_singleton] at hs
  subst hs
  refine ⟨⟨rfl, ?_⟩, rfl⟩
  show List.Chain' (fun a b => elemOkB a b = true)
    [PathElem.move ⟨1, 2⟩, PathElem.line ⟨3, 4⟩]
  rw [List.chain'_cons]
  refine ⟨?_, List.chain'_singleton _⟩
  show ((PathElem.move ⟨1, 2⟩).pt != (⟨3, 4⟩ : Pt)) = true
  rw [bne_iff_ne]
  intro hh
  have h2 := congrArg Pt.x hh
  rw [show (PathElem.move (⟨1, 2⟩ : Pt)).pt.x = 1 from rfl] at h2
  norm_num at h2

/-! ## Screen-to-document transform

`QTransform` restricted to the operations the source uses.  Composition
follows Qt semantics: an operation applied later acts first on mapped
points (`m.translate(f); m.scale(s); m.translate(-f)` maps `p` to
`f + s⊙(p - f)`), and `map` uses Qt's row convention
`x' = m11·x + m21·y + dx`.  `QTransform.rotate(angle)` is modelled by
the rotation-matrix entries `(c, s) = (cos angle, sin angle)` taken as
parameters, since the claims quantify over all rotations and cosine and
sine are transcendental.  `QTransform.inverted` reports failure exactly
when `qFuzzyIsNull(det)` (|det| ≤ 1e-12). -/

structure Aff2 where
  m11 : ℚ
  m12 : ℚ
  m21 : ℚ
  m22 : ℚ
  dx : ℚ
  dy : ℚ
deriving DecidableEq, Repr

def Aff2.idT : Aff2 := ⟨1, 0, 0, 1, 0, 0⟩

def Aff2.map (m : Aff2) (p : Pt) : Pt :=
  ⟨m.m11 * p.x + m.m21 * p.y + m.dx, m.m12 * p.x + m.m22 * p.y + m.dy⟩

def Aff2.translateOp (m : Aff2) (tx ty : ℚ) : Aff2 :=
  { m with
    dx := m.dx + m.m11 * tx + m.m21 * ty
    dy := m.dy + m.m12 * tx + m.m22 * ty }

def Aff2.rotateOp (m : Aff2) (c s : ℚ) : Aff2 :=
  ⟨m.m11 * c + m.m21 * s, m.m12 * c + m.m22 * s,
   -(m.m11 * s) + m.m21 * c, -(m.m12 * s) + m.m22 * c, m.dx, m.dy⟩

def Aff2.scaleOp (m : Aff2) (fx fy : ℚ) : Aff2 :=
  ⟨m.m11 * fx, m.m12 * fx, m.m21 * fy, m.m22 * fy, m.dx, m.dy⟩

def Aff2.det (m : Aff2) : ℚ := m.m11 * m.m22 - m.m12 * m.m21

def qFuzzyIsNull (d : ℚ) : Bool := |d| ≤ 1 / 1000000000000

/-- The inverse affine map (meaningful only when the determinant is
non-zero; `map_screen_to_doc` only uses it behind the fuzzy-null
check). -/
def Aff2.inverted (m : Aff2) : Aff2 :=
  ⟨m.m22 / m.det, -(m.m12) / m.det, -(m.m21) / m.det, m.m11 / m.det,
   (m.m21 * m.dy - m.m22 * m.dx) / m.det,
   (m.m12 * m.dx - m.m11 * m.dy) / m.det⟩

/-- `OverlayWidget.map_screen_to_doc` (viewport present):
`pos_in_viewport = mapFromGlobal(screen_pos)` is the subtraction of the
viewport's global top-left, the forward matrix is
translate(doc_origin) ∘ rotate ∘ scale(±zoom, zoom), and if it cannot
be inverted the input point is returned unchanged. -/
def map_screen_to_doc (viewportTopLeft : Pt) (zoom c s : ℚ)
    (is_mirrored : Bool) (doc_origin : Pt) (screen_pos : Pt) : Pt :=
  let pos_in_viewport : Pt :=
    ⟨screen_pos.x - viewportTopLeft.x, screen_pos.y - viewportTopLeft.y⟩
  let sx := if is_mirrored then -zoom else zoom
  let m := ((Aff2.idT.translateOp doc_origin.x doc_origin.y).rotateOp c s).scaleOp
    sx zoom
  if qFuzzyIsNull m.det then screen_pos
  else m.inverted.map pos_in_viewport

/-- C6: with zoom 0 the forward matrix is singular (its determinant is
0 whatever the rotation, mirror flag and origin are), `inverted()`
reports failure, and `map_screen_to_doc` returns the input screen point
unchanged - no exception and, in this exact-arithmetic model, no
NaN/infinite coordinates can arise. -/
theorem C6_zoom_zero_fallback (viewportTopLeft : Pt) (c s : ℚ)
    (is_mirrored : Bool) (doc_origin : Pt) (screen_pos : Pt) :
    map_screen_to_doc viewportTopLeft 0 c s is_mirrored doc_origin
      screen_pos = screen_pos := by
  unfold map_screen_to_doc
  simp only
  have hdet : (((Aff2.idT.translateOp doc_origin.x doc_origin.y).rotateOp
      c s).scaleOp (if is_mirrored then -(0 : ℚ) else 0) 0).det = 0 := by
    cases is_mirrored <;>
      simp [Aff2.det, Aff2.scaleOp, Aff2.rotateOp, Aff2.translateOp, Aff2.idT]
  rw [hdet]
  rw [if_pos (by norm_num [qFuzzyIsNull])]

/-! ## Move-mode selection and handle drags

The handle constants of the source, `QRectF` accessors, the handle
hit-test, and the two press/move handlers restricted to MOVE mode
(`inputPress` / `inputMove`).  The stroke-level geometric hit test
`path.intersects(hit_rect) or path.contains(doc_pos)` is Qt library
geometry (fill-rule dependent), not code of this repository; it enters
the model as an abstract per-path predicate, exactly as the claims
condition on "hits some stroke".  The Python `set` iterations (building
the snapshot maps and the combined rectangle) are modelled in ascending
index order. -/

def H_NONE : ℕ := 0
def H_TOP_LEFT : ℕ := 1
def H_TOP : ℕ := 2
def H_TOP_RIGHT : ℕ := 3
def H_RIGHT : ℕ := 4
def H_BOTTOM_RIGHT : ℕ := 5
def H_BOTTOM : ℕ := 6
def H_BOTTOM_LEFT : ℕ := 7
def H_LEFT : ℕ := 8
def H_BODY : ℕ := 9

def Rect.left (r : Rect) : ℚ := r.x
def Rect.top (r : Rect) : ℚ := r.y
def Rect.right (r : Rect) : ℚ := r.x + r.w
def Rect.bottom (r : Rect) : ℚ := r.y + r.h
def Rect.center (r : Rect) : Pt := ⟨r.x + r.w / 2, r.y + r.h / 2⟩
def Rect.topLeft (r : Rect) : Pt := ⟨r.x, r.y⟩
def Rect.topRight (r : Rect) : Pt := ⟨r.x + r.w, r.y⟩
def Rect.bottomLeft (r : Rect) : Pt := ⟨r.x, r.y + r.h⟩
def Rect.bottomRight (r : Rect) : Pt := ⟨r.x + r.w, r.y + r.h⟩

/-- `QRectF.isNull`: both width and height are 0. -/
def Rect.isNull (r : Rect) : Bool := r.w == 0 && r.h == 0

/-- `QRectF.isEmpty`: width or height is ≤ 0. -/
def Rect.isEmpty (r : Rect) : Bool := decide (r.w ≤ 0) || decide (r.h ≤ 0)

/-- `QRectF.contains(point)`, inclusive of the edges, normalizing a
negative width/height like Qt. -/
def Rect.containsPt (r : Rect) (p : Pt) : Bool :=
  if min r.x (r.x + r.w) ≤ p.x ∧ p.x ≤ max r.x (r.x + r.w) ∧
      min r.y (r.y + r.h) ≤ p.y ∧ p.y ≤ max r.y (r.y + r.h) then true
  else false

/-- `QRectF::operator|` (`united`): a null rectangle is dropped,
otherwise the bounding box of both. -/
def Rect.united (a b : Rect) : Rect :=
  if a.isNull then b
  else if b.isNull then a
  else
    let l1 := if a.w < 0 then a.x + a.w else a.x
    let r1 := if a.w < 0 then a.x else a.x + a.w
    let t1 := if a.h < 0 then a.y + a.h else a.y
    let b1 := if a.h < 0 then a.y else a.y + a.h
    let l2 := if b.w < 0 then b.x + b.w else b.x
    let r2 := if b.w < 0 then b.x else b.x + b.w
    let t2 := if b.h < 0 then b.y + b.h else b.y
    let b2 := if b.h < 0 then b.y else b.y + b.h
    ⟨min l1 l2, min t1 t2, max r1 r2 - min l1 l2, max b1 b2 - min t1 t2⟩

/-- `QPainterPath.boundingRect` for move/line-only paths: the bounding
box of the element points; the empty path gives the null `QRectF()`. -/
def pathBoundingRect (p : List PathElem) : Rect :=
  match p with
  | [] => ⟨0, 0, 0, 0⟩
  | e :: rest =>
    let xs := rest.map (fun el => el.pt.x)
    let ys := rest.map (fun el => el.pt.y)
    let minx := xs.foldl min e.pt.x
    let maxx := xs.foldl max e.pt.x
    let miny := ys.foldl min e.pt.y
    let maxy := ys.foldl max e.pt.y
    ⟨minx, miny, maxx - minx, maxy - miny⟩

/-- `OverlayWidget.get_combined_bounding_rect`: union of the bounding
rectangles of the selected strokes (stale indices are skipped by the
`idx < len` guard), with the `first` flag of the source. -/
def get_combined_bounding_rect (st : OvState) : Rect :=
  if st.selected_indices = ∅ then ⟨0, 0, 0, 0⟩
  else
    ((st.selected_indices.sort (· ≤ ·)).foldl
      (fun acc idx =>
        match st.stored_paths[idx]? with
        | some s =>
          let rect := pathBoundingRect s.path
          if acc.2 then (rect, false) else (acc.1.united rect, false)
        | none => acc)
      (⟨⟨0, 0, 0, 0⟩, true⟩ : Rect × Bool)).1

/-- `OverlayWidget.get_handle_coords`, in the dict insertion order of
the source. -/
def get_handle_coords (r : Rect) : List (ℕ × Pt) :=
  [(H_TOP_LEFT, r.topLeft), (H_TOP, ⟨r.center.x, r.top⟩),
   (H_TOP_RIGHT, r.topRight), (H_RIGHT, ⟨r.right, r.center.y⟩),
   (H_BOTTOM_RIGHT, r.bottomRight), (H_BOTTOM, ⟨r.center.x, r.bottom⟩),
   (H_BOTTOM_LEFT, r.bottomLeft), (H_LEFT, ⟨r.left, r.center.y⟩)]

def distSq (a b : Pt) : ℚ := (a.x - b.x) ^ 2 + (a.y - b.y) ^ 2

/-- `OverlayWidget.get_hit_handle`: the first handle within the
screen-space tolerance (10 px scaled by zoom; the comparison
`length < tol` is algebraized as `distSq < tol²`), else the body if the
rectangle contains the point, else none. -/
def get_hit_handle (zoom : ℚ) (doc_pos : Pt) (rect : Rect) : ℕ :=
  let safe_zoom := if 1 / 1000 < zoom then zoom else 1
  let tol := 10 / safe_zoom
  match (get_handle_coords rect).find?
      (fun hp => decide (distSq doc_pos hp.2 < tol ^ 2)) with
  | some hp => hp.1
  | none => if rect.containsPt doc_pos then H_BODY else H_NONE

/-- The topmost-first stroke search of `inputPress`
(`for i in range(len-1, -1, -1)`), with the Qt geometric test abstracted
as `strokeHit`. -/
def findTopmost (strokeHit : List PathElem → Bool) (paths : List Stroke) :
    Option ℕ :=
  ((List.range paths.length).reverse.find? (fun i =>
    match paths[i]? with
    | some s => strokeHit s.path
    | none => false))

def lookupIdx {α : Type} (l : List (ℕ × α)) (i : ℕ) : Option α :=
  (l.find? (fun kv => kv.1 == i)).map (fun kv => kv.2)

def snapshotPaths (st : OvState) : List (ℕ × List PathElem) :=
  (st.selected_indices.sort (· ≤ ·)).filterMap (fun idx =>
    (st.stored_paths[idx]?).map (fun s => (idx, s.path)))

def snapshotWidths (st : OvState) : List (ℕ × ℚ) :=
  (st.selected_indices.sort (· ≤ ·)).filterMap (fun idx =>
    (st.stored_paths[idx]?).map (fun s => (idx, s.width)))

/-- `OverlayWidget.inputPress`, MOVE-mode branch.  `strokeHit`
abstracts `path.intersects(hit_rect) or path.contains(doc_pos)` for
this press. -/
def inputPressMove (strokeHit : List PathElem → Bool) (zoom : ℚ)
    (is_shift : Bool) (doc_pos : Pt) (st : OvState) : OvState :=
  let combined_rect := get_combined_bounding_rect st
  let hit_handle := if combined_rect.isEmpty then H_NONE
    else get_hit_handle zoom doc_pos combined_rect
  if hit_handle ≠ H_NONE then
    let st1 := commit_state st
    { st1 with
      active_handle := hit_handle
      start_pos_doc := doc_pos
      initial_combined_rect := combined_rect
      initial_paths_map := snapshotPaths st1
      initial_widths_map := snapshotWidths st1 }
  else
    match findTopmost strokeHit st.stored_paths with
    | some found_index =>
      let sel := if is_shift then
          (if found_index ∈ st.selected_indices then
            st.selected_indices.erase found_index
          else insert found_index st.selected_indices)
        else
          (if found_index ∉ st.selected_indices then {found_index}
          else st.selected_indices)
      let st1 := commit_state { st with selected_indices := sel }
      { st1 with
        active_handle := H_BODY
        start_pos_doc := doc_pos
        initial_combined_rect := get_combined_bounding_rect st1
        initial_paths_map := snapshotPaths st1
        initial_widths_map := snapshotWidths st1 }
    | none =>
      { st with
        selected_indices := if is_shift then st.selected_indices else ∅
        is_selecting_area := true
        selection_start_doc := doc_pos
        selection_current_doc := doc_pos
        active_handle := H_NONE }

def translatePath (dx dy : ℚ) (p : List PathElem) : List PathElem :=
  p.map (fun e => match e with
    | .move q => .move ⟨q.x + dx, q.y + dy⟩
    | .line q => .line ⟨q.x + dx, q.y + dy⟩)

/-- `QTransform.map(QPainterPath)`: the transform applied to every
element point. -/
def mapPathAff (m : Aff2) (p : List PathElem) : List PathElem :=
  p.map (fun e => match e with
    | .move q => .move (m.map q)
    | .line q => .line (m.map q))

/-- Fixed point of a handle drag (the source's if/elif chain; the
default - never reached for a real handle - is the rectangle center). -/
def handleFixedPoint (h : ℕ) (r : Rect) : Pt :=
  if h = H_TOP_LEFT then r.bottomRight
  else if h = H_TOP then ⟨r.center.x, r.bottom⟩
  else if h = H_TOP_RIGHT then r.bottomLeft
  else if h = H_RIGHT then ⟨r.left, r.center.y⟩
  else if h = H_BOTTOM_RIGHT then r.topLeft
  else if h = H_BOTTOM then ⟨r.center.x, r.top⟩
  else if h = H_BOTTOM_LEFT then r.topRight
  else if h = H_LEFT then ⟨r.right, r.center.y⟩
  else r.center

/-- Original position of the dragged handle (default `QPointF()`). -/
def handleOrigPos (h : ℕ) (r : Rect) : Pt :=
  if h = H_TOP_LEFT then r.topLeft
  else if h = H_TOP then ⟨r.center.x, r.top⟩
  else if h = H_TOP_RIGHT then r.topRight
  else if h = H_RIGHT then ⟨r.right, r.center.y⟩
  else if h = H_BOTTOM_RIGHT then r.bottomRight
  else if h = H_BOTTOM then ⟨r.center.x, r.bottom⟩
  else if h = H_BOTTOM_LEFT then r.bottomLeft
  else if h = H_LEFT then ⟨r.left, r.center.y⟩
  else ptZero

/-- The raw per-axis scale factors with the `0.001` degeneracy guards. -/
def rawScales (h : ℕ) (r : Rect) (doc_pos : Pt) : ℚ × ℚ :=
  let fixed := handleFixedPoint h r
  let orig := handleOrigPos h r
  let vox := orig.x - fixed.x
  let voy := orig.y - fixed.y
  let vcx := doc_pos.x - fixed.x
  let vcy := doc_pos.y - fixed.y
  (if 1 / 1000 < |vox| then vcx / vox else 1,
   if 1 / 1000 < |voy| then vcy / voy else 1)

/-- The scale forcing of the source: edge handles copy the other axis's
magnitude; corner handles force both axes to the common magnitude
`max(|sx|,|sy|)` with each keeping its own sign. -/
def forcedScales (h : ℕ) (sx sy : ℚ) : ℚ × ℚ :=
  if h = H_TOP ∨ h = H_BOTTOM then (|sy|, sy)
  else if h = H_LEFT ∨ h = H_RIGHT then (sx, |sx|)
  else
    (max |sx| |sy| * (if 0 ≤ sx then 1 else -1),
     max |sx| |sy| * (if 0 ≤ sy then 1 else -1))

/-- The `QTransform` built by the scale branch of `inputMove`:
`translate(fixed); scale(sx, sy); translate(-fixed)`. -/
def dragTransform (h : ℕ) (r : Rect) (doc_pos : Pt) : Aff2 :=
  let raw := rawScales h r doc_pos
  let s := forcedScales h raw.1 raw.2
  let fixed := handleFixedPoint h r
  ((Aff2.idT.translateOp fixed.x fixed.y).scaleOp s.1 s.2).translateOp
    (-fixed.x) (-fixed.y)

def dragAvgScale (h : ℕ) (r : Rect) (doc_pos : Pt) : ℚ :=
  let raw := rawScales h r doc_pos
  let s := forcedScales h raw.1 raw.2
  (|s.1| + |s.2|) / 2

/-- `OverlayWidget.inputMove`, MOVE-mode branches (marquee update, body
translation, handle scale).  The per-index update loop is expressed as
a map over the indexed store. -/
def inputMoveMove (doc_pos : Pt) (st : OvState) : OvState :=
  if st.is_selecting_area then { st with selection_current_doc := doc_pos }
  else if st.active_handle = H_BODY then
    let dx := doc_pos.x - st.start_pos_doc.x
    let dy := doc_pos.y - st.start_pos_doc.y
    { st with stored_paths := st.stored_paths.enum.map (fun iv =>
        if iv.1 ∈ st.selected_indices then
          match lookupIdx st.initial_paths_map iv.1 with
          | some p0 => ⟨translatePath dx dy p0, iv.2.color, iv.2.width⟩
          | none => iv.2
        else iv.2) }
  else if st.active_handle ≠ H_NONE then
    let tr := dragTransform st.active_handle st.initial_combined_rect doc_pos
    let avg := dragAvgScale st.active_handle st.initial_combined_rect doc_pos
    { st with stored_paths := st.stored_paths.enum.map (fun iv =>
        if iv.1 ∈ st.selected_indices then
          match lookupIdx st.initial_paths_map iv.1 with
          | some p0 =>
            ⟨mapPathAff tr p0, iv.2.color,
             (lookupIdx st.initial_widths_map iv.1).getD 1 * avg⟩
          | none => iv.2
        else iv.2) }
  else st

/-- Modelled from the spec's words (section 4.4): the similarity
transform "translate-scale-translate about the fixed point". -/
def specScaleAbout (fixed : Pt) (sx sy : ℚ) (p : Pt) : Pt :=
  ⟨fixed.x + sx * (p.x - fixed.x), fixed.y + sy * (p.y - fixed.y)⟩

/-- Modelled from the claim's words: the bounding-box corner opposite a
dragged corner handle. -/
def oppositeCorner (h : ℕ) (r : Rect) : Pt :=
  if h = H_TOP_LEFT then r.bottomRight
  else if h = H_TOP_RIGHT then r.bottomLeft
  else if h = H_BOTTOM_RIGHT then r.topLeft
  else r.topRight

/-- Modelled from the spec: the whole path mapped by the
translate-scale-translate similarity about the opposite corner, with
the (code-side) forced scale factors. -/
def specCornerDrag (h : ℕ) (r : Rect) (doc_pos : Pt)
    (p0 : List PathElem) : List PathElem :=
  p0.map (fun e => match e with
    | .move q => .move (specScaleAbout (oppositeCorner h r)
        (forcedScales h (rawScales h r doc_pos).1 (rawScales h r doc_pos).2).1
        (forcedScales h (rawScales h r doc_pos).1 (rawScales h r doc_pos).2).2 q)
    | .line q => .line (specScaleAbout (oppositeCorner h r)
        (forcedScales h (rawScales h r doc_pos).1 (rawScales h r doc_pos).2).1
        (forcedScales h (rawScales h r doc_pos).1 (rawScales h r doc_pos).2).2 q))

/-- The `QTransform` built by the code is exactly the
translate-scale-translate map about the fixed point. -/
theorem dragTransform_map (h : ℕ) (r : Rect) (doc_pos : Pt) (q : Pt) :
    (dragTransform h r doc_pos).map q =
      specScaleAbout (handleFixedPoint h r)
        (forcedScales h (rawScales h r doc_pos).1 (rawScales h r doc_pos).2).1
        (forcedScales h (rawScales h r doc_pos).1 (rawScales h r doc_pos).2).2
        q := by
  unfold dragTransform specScaleAbout Aff2.map Aff2.translateOp Aff2.scaleOp
    Aff2.idT
  simp only [Pt.mk.injEq]
  constructor <;> ring

theorem handleFixedPoint_corner (h : ℕ) (r : Rect)
    (hh : h = H_TOP_LEFT ∨ h = H_TOP_RIGHT ∨ h = H_BOTTOM_RIGHT ∨
      h = H_BOTTOM_LEFT) :
    handleFixedPoint h r = oppositeCorner h r := by
  rcases hh with rfl | rfl | rfl | rfl <;> rfl

/-- C4: during a corner-handle drag, every selected stroke's path is its
pre-drag snapshot mapped by the translate-scale-translate similarity
about the bounding-box corner opposite the dragged handle, and its
width is the pre-drag width times `(|sx|+|sy|)/2` (the forced factors;
for corners both magnitudes equal `max(|sx|,|sy|)`); the second
conjunct states the forcing: both axes share the common magnitude
`max(|sx|,|sy|)` while each keeps its own sign.  The concrete instance
of the claim (bounding box (0,0)-(100,100), bottom-right handle dragged
to (200,200), point (50,50) mapped to (100,100) with (0,0) fixed,
width doubled) is the witness theorem. -/
theorem C4_corner_scale (st : OvState) (doc_pos : Pt) (idx : ℕ)
    (s0 : Stroke) (p0 : List PathElem) (w0 : ℚ)
    (hh : st.active_handle = H_TOP_LEFT ∨ st.active_handle = H_TOP_RIGHT ∨
      st.active_handle = H_BOTTOM_RIGHT ∨ st.active_handle = H_BOTTOM_LEFT)
    (hns : st.is_selecting_area = false)
    (hsel : idx ∈ st.selected_indices)
    (hidx : st.stored_paths[idx]? = some s0)
    (hsnap : lookupIdx st.initial_paths_map idx = some p0)
    (hw : lookupIdx st.initial_widths_map idx = some w0) :
    (inputMoveMove doc_pos st).stored_paths[idx]? = some
      ⟨specCornerDrag st.active_handle st.initial_combined_rect doc_pos p0,
       s0.color,
       w0 * dragAvgScale st.active_handle st.initial_combined_rect doc_pos⟩ ∧
    (∀ sx sy : ℚ,
      |(forcedScales st.active_handle sx sy).1| = max |sx| |sy| ∧
      |(forcedScales st.active_handle sx sy).2| = max |sx| |sy| ∧
      (0 ≤ sx → (forcedScales st.active_handle sx sy).1 = max |sx| |sy|) ∧
      (sx < 0 → (forcedScales st.active_handle sx sy).1 = -(max |sx| |sy|)) ∧
      (0 ≤ sy → (forcedScales st.active_handle sx sy).2 = max |sx| |sy|) ∧
      (sy < 0 → (forcedScales st.active_handle sx sy).2 = -(max |sx| |sy|))) := by
  have hbody : ¬ st.active_handle = H_BODY := by
    rcases hh with h | h | h | h <;> rw [h] <;> norm_num [H_TOP_LEFT,
      H_TOP_RIGHT, H_BOTTOM_RIGHT, H_BOTTOM_LEFT, H_BODY]
  have hnone : ¬ st.active_handle = H_NONE := by
    rcases hh with h | h | h | h <;> rw [h] <;> norm_num [H_TOP_LEFT,
      H_TOP_RIGHT, H_BOTTOM_RIGHT, H_BOTTOM_LEFT, H_NONE]
  constructor
  · unfold inputMoveMove
    rw [hns]
    rw [if_neg (Bool.false_ne_true)]
    rw [if_neg hbody, if_pos hnone]
    simp only
    rw [List.getElem?_map, List.getElem?_enum, hidx]
    simp only [Option.map_some']
    rw [if_pos hsel, hsnap]
    simp only
    rw [hw]
    simp only [Option.getD_some]
    congr 2
    unfold mapPathAff specCornerDrag
    refine List.map_congr_left ?_
    intro e _
    rcases e with q | q
    · simp only
      rw [dragTransform_map, handleFixedPoint_corner st.active_handle
        st.initial_combined_rect hh]
    · simp only
      rw [dragTransform_map, handleFixedPoint_corner st.active_handle
        st.initial_combined_rect hh]
  · intro sx sy
    have hcorner : forcedScales st.active_handle sx sy =
        (max |sx| |sy| * (if 0 ≤ sx then 1 else -1),
         max |sx| |sy| * (if 0 ≤ sy then 1 else -1)) := by
      unfold forcedScales
      rcases hh with h | h | h | h <;> rw [h] <;>
        norm_num [H_TOP_LEFT, H_TOP_RIGHT, H_BOTTOM_RIGHT, H_BOTTOM_LEFT,
          H_TOP, H_BOTTOM, H_LEFT, H_RIGHT]
    rw [hcorner]
    have hmaxnn : (0 : ℚ) ≤ max |sx| |sy| :=
      le_trans (abs_nonneg sx) (le_max_left _ _)
    refine ⟨?_, ?_, ?_, ?_, ?_, ?_⟩
    · by_cases hs : 0 ≤ sx
      · rw [if_pos hs, mul_one, abs_of_nonneg hmaxnn]
      · rw [if_neg hs]
        rw [show max |sx| |sy| * (-1 : ℚ) = -(max |sx| |sy|) by ring,
          abs_neg, abs_of_nonneg hmaxnn]
    · by_cases hs : 0 ≤ sy
      · rw [if_pos hs, mul_one, abs_of_nonneg hmaxnn]
      · rw [if_neg hs]
        rw [show max |sx| |sy| * (-1 : ℚ) = -(max |sx| |sy|) by ring,
          abs_neg, abs_of_nonneg hmaxnn]
    · intro hs
      rw [if_pos hs, mul_one]
    · intro hs
      rw [if_neg (not_le.mpr hs)]
      ring
    · intro hs
      rw [if_pos hs, mul_one]
    · intro hs
      rw [if_neg (not_le.mpr hs)]
      ring

/-! ## Concrete drag and selection scenarios -/

/-- An arbitrary valid color for the concrete scenarios. -/
def redCol : QCol := ⟨true, 255, 255, 0, 0⟩

/-- Mid-drag state of the claim C4 scenario: bounding box
(0,0)-(100,100), bottom-right handle active, one selected stroke with a
point at (50,50) and width 4. -/
def c4State : OvState :=
  { stored_paths := [⟨[.move ⟨0, 0⟩, .line ⟨50, 50⟩], redCol, 4⟩]
    selected_indices := {0}
    undo_stack := []
    redo_stack := []
    active_handle := H_BOTTOM_RIGHT
    start_pos_doc := ⟨100, 100⟩
    initial_combined_rect := ⟨0, 0, 100, 100⟩
    initial_paths_map := [(0, [.move ⟨0, 0⟩, .line ⟨50, 50⟩])]
    initial_widths_map := [(0, 4)]
    is_selecting_area := false
    selection_start_doc := ⟨0, 0⟩
    selection_current_doc := ⟨0, 0⟩ }

theorem C4_corner_scale_witness :
    (inputMoveMove ⟨200, 200⟩ c4State).stored_paths[0]? =
      some ⟨[.move ⟨0, 0⟩, .line ⟨100, 100⟩], redCol, 8⟩ := by
  have h := (C4_corner_scale c4State ⟨200, 200⟩ 0
    ⟨[.move ⟨0, 0⟩, .line ⟨50, 50⟩], redCol, 4⟩
    [.move ⟨0, 0⟩, .line ⟨50, 50⟩] 4
    (Or.inr (Or.inr (Or.inl rfl))) rfl (by decide) rfl rfl rfl).1
  rw [h]
  norm_num [c4State, specCornerDrag, oppositeCorner, rawScales,
    forcedScales, handleFixedPoint, handleOrigPos, specScaleAbout,
    dragAvgScale, Rect.topLeft, Rect.bottomRight, Rect.center,
    H_BOTTOM_RIGHT, H_TOP_LEFT, H_TOP_RIGHT, H_BOTTOM_LEFT, H_TOP,
    H_BOTTOM, H_LEFT, H_RIGHT]

/-- Ascending iteration order of the two-element index set. -/
theorem sortPair01 : Finset.sort (· ≤ ·) ({0, 1} : Finset ℕ) = [0, 1] := by
  rw [show ({0, 1} : Finset ℕ) = insert 0 {1} from rfl]
  rw [Finset.sort_insert]
  · rw [Finset.sort_singleton]
  · intro b hb
    simp only [Finset.mem_singleton] at hb
    omega
  · decide

/-- C5 (amended): in MOVE mode, when the press hits no handle (the
handle test is skipped on an empty combined rectangle, else reports
`H_NONE`) but the topmost-first stroke search finds stroke `found`, and
no modifier is held, the resulting selection is `{found}` if `found`
was not selected before the press - but the UNCHANGED previous
selection if `found` was already selected. -/
theorem C5_press_selection (strokeHit : List PathElem → Bool) (zoom : ℚ)
    (doc_pos : Pt) (st : OvState) (found : ℕ)
    (hmiss : (if (get_combined_bounding_rect st).isEmpty then H_NONE
      else get_hit_handle zoom doc_pos (get_combined_bounding_rect st)) =
      H_NONE)
    (hfound : findTopmost strokeHit st.stored_paths = some found) :
    (inputPressMove strokeHit zoom false doc_pos st).selected_indices =
      if found ∈ st.selected_indices then st.selected_indices
      else {found} := by
  unfold inputPressMove
  simp only
  rw [hmiss]
  rw [if_neg (by norm_num)]
  rw [hfound]
  simp only [Bool.false_eq_true, if_false]
  unfold commit_state
  simp only
  by_cases hmem : found ∈ st.selected_indices
  · rw [if_pos hmem, if_neg (by exact fun hn => hn hmem)]
  · rw [if_neg hmem, if_pos hmem]

/-- Pre-press state of the C5 scenario: two flat strokes (so the
combined bounding rectangle has height 0 and the handle test is
skipped), both already selected. -/
def c5State : OvState :=
  { stored_paths := [⟨[.move ⟨0, 0⟩, .line ⟨10, 0⟩], redCol, 4⟩,
                     ⟨[.move ⟨0, 0⟩, .line ⟨5, 0⟩], redCol, 4⟩]
    selected_indices := {0, 1}
    undo_stack := []
    redo_stack := []
    active_handle := H_NONE
    start_pos_doc := ⟨0, 0⟩
    initial_combined_rect := ⟨0, 0, 0, 0⟩
    initial_paths_map := []
    initial_widths_map := []
    is_selecting_area := false
    selection_start_doc := ⟨0, 0⟩
    selection_current_doc := ⟨0, 0⟩ }

/-- C5 counterexample: a primary-button press with no modifier that
hits no handle and hits stroke 1 (the topmost) leaves the selection
`{0, 1}` unchanged, because stroke 1 was already selected - the claim
demands the singleton `{1}` whatever the previous selection was. -/
theorem C5_counterexample :
    findTopmost (fun _ => true) c5State.stored_paths = some 1 ∧
    (if (get_combined_bounding_rect c5State).isEmpty then H_NONE
      else get_hit_handle 1 ⟨3, 0⟩ (get_combined_bounding_rect c5State)) =
      H_NONE ∧
    (inputPressMove (fun _ => true) 1 false ⟨3, 0⟩
      c5State).selected_indices = {0, 1} ∧
    ({0, 1} : Finset ℕ) ≠ {1} := by
  have hrect : get_combined_bounding_rect c5State = ⟨0, 0, 10, 0⟩ := by
    unfold get_combined_bounding_rect
    rw [if_neg (by decide)]
    rw [show c5State.selected_indices = ({0, 1} : Finset ℕ) from rfl,
      sortPair01]
    norm_num [c5State, pathBoundingRect, Rect.united, Rect.isNull,
      PathElem.pt, inf_eq_min, sup_eq_max, min_def, max_def]
  have hmiss : (if (get_combined_bounding_rect c5State).isEmpty then H_NONE
      else get_hit_handle 1 ⟨3, 0⟩ (get_combined_bounding_rect c5State)) =
      H_NONE := by
    rw [hrect]
    norm_num [Rect.isEmpty]
  have hfound : findTopmost (fun _ => true) c5State.stored_paths =
      some 1 := by rfl
  refine ⟨hfound, hmiss, ?_, by decide⟩
  unfold inputPressMove
  simp only
  rw [hmiss]
  rw [if_neg (by norm_num)]
  rw [hfound]
  simp only [Bool.false_eq_true, if_false]
  unfold commit_state
  simp only
  rw [if_neg (by decide : ¬ (1 ∉ c5State.selected_indices))]
  rfl

/-- The same press with nothing selected beforehand. -/
def c5WitState : OvState := { c5State with selected_indices := ∅ }

theorem C5_press_selection_witness :
    (inputPressMove (fun _ => true) 1 false ⟨3, 0⟩
      c5WitState).selected_indices = {1} := by
  have hrect : get_combined_bounding_rect c5WitState = ⟨0, 0, 0, 0⟩ := by
    unfold get_combined_bounding_rect
    rw [if_pos (show c5WitState.selected_indices = ∅ from rfl)]
  have h := C5_press_selection (fun _ => true) 1 ⟨3, 0⟩ c5WitState 1
    (by rw [hrect]; norm_num [Rect.isEmpty]) (by rfl)
  rw [h, if_neg (by decide)]
